import Mathlib

/-!
Verification of the musli serialization framework core against its
natural-language specification.

Byte streams are modelled as `List Nat` (each element a byte value `< 256`
where it matters), machine integers as `Nat` / `Int` with explicit `2 ^ w`
bounds, and fallible operations return `Option` / `Except`.
-/

namespace Musli

/-! ### Continuation (varint) codec and zig-zag

The integer codec itself (`musli-binary-common/src/int/continuation.rs` and
`zigzag.rs`) is not among the provided sources; only its callers
(`musli-storage/src/integer_encoding.rs`) and its tests
(`musli-common/src/int/tests.rs`) are.  The codec is therefore modelled from
the spec (section 4.2).
-/

/-- Modelled from the spec: continuation encoding of an unsigned integer
(`musli-binary-common` continuation codec, absent from the sources): emit the
integer seven bits at a time, least-significant first; each byte sets bit 7
if more bytes follow and clears it on the last byte. -/
def contEncode (n : Nat) : List Nat :=
  if n < 128 then [n]
  else (n % 128 + 128) :: contEncode (n / 128)
decreasing_by exact Nat.div_lt_self (by omega) (by omega)

/-- Modelled from the spec: continuation decoding into a `w`-bit unsigned
target (absent from the sources): read seven-bit groups until a byte without
the high bit; more groups than the target width supports fails with
overflow. -/
def contDecodeAux (w : Nat) : List Nat → Nat → Nat → Option (Nat × List Nat)
  | [], _, _ => none
  | b :: r, shift, acc =>
    if w ≤ shift then none
    else
      let acc' := acc + b % 128 * 2 ^ shift
      if 2 ^ w ≤ acc' then none
      else if b < 128 then some (acc', r) else contDecodeAux w r (shift + 7) acc'

/-- Continuation decoding of a `w`-bit unsigned integer from the head of a
byte stream, returning the value and the remaining bytes. -/
def contDecode (w : Nat) (input : List Nat) : Option (Nat × List Nat) :=
  contDecodeAux w input 0 0

theorem contDecodeAux_cons (w b : Nat) (r : List Nat) (shift acc : Nat)
    (hs : shift < w) (hacc : acc + b % 128 * 2 ^ shift < 2 ^ w) :
    contDecodeAux w (b :: r) shift acc =
      if b < 128 then some (acc + b % 128 * 2 ^ shift, r)
      else contDecodeAux w r (shift + 7) (acc + b % 128 * 2 ^ shift) := by
  simp only [contDecodeAux]
  rw [if_neg (by omega), if_neg (by omega)]

theorem contDecodeAux_contEncode (w : Nat) :
    ∀ (n shift acc : Nat) (rest : List Nat),
      shift < w → acc < 2 ^ shift → acc + n * 2 ^ shift < 2 ^ w →
      contDecodeAux w (contEncode n ++ rest) shift acc =
        some (acc + n * 2 ^ shift, rest) := by
  intro n
  induction n using Nat.strong_induction_on with
  | _ n ih =>
    intro shift acc rest hs ha hbound
    rw [contEncode]
    by_cases h : n < 128
    · rw [if_pos h]
      show contDecodeAux w (n :: rest) shift acc = _
      rw [contDecodeAux_cons w n rest shift acc hs
        (by rw [Nat.mod_eq_of_lt h]; exact hbound)]
      rw [if_pos h, Nat.mod_eq_of_lt h]
    · rw [if_neg h]
      show contDecodeAux w ((n % 128 + 128) :: (contEncode (n / 128) ++ rest))
        shift acc = _
      have hmod : (n % 128 + 128) % 128 = n % 128 := by omega
      have hrep : n % 128 * 2 ^ shift ≤ n * 2 ^ shift :=
        Nat.mul_le_mul_right _ (Nat.mod_le _ _)
      have hpow : (2 : Nat) ^ (shift + 7) = 128 * 2 ^ shift := by
        rw [pow_add]; ring
      have hacc7 : acc + n % 128 * 2 ^ shift < 2 ^ (shift + 7) := by
        have h127 : n % 128 * 2 ^ shift ≤ 127 * 2 ^ shift :=
          Nat.mul_le_mul_right _ (by omega)
        omega
      have hw7 : shift + 7 < w := by
        by_contra hw
        have h1 : (2 : Nat) ^ w ≤ 2 ^ (shift + 7) :=
          Nat.pow_le_pow_right (by omega) (by omega)
        have h2 : (2 : Nat) ^ (shift + 7) ≤ n * 2 ^ shift := by
          rw [hpow]
          exact Nat.mul_le_mul_right _ (by omega)
        omega
      have heq : acc + n % 128 * 2 ^ shift + n / 128 * 2 ^ (shift + 7) =
          acc + n * 2 ^ shift := by
        have hn := Nat.div_add_mod n 128
        calc acc + n % 128 * 2 ^ shift + n / 128 * 2 ^ (shift + 7)
            = acc + (128 * (n / 128) + n % 128) * 2 ^ shift := by rw [hpow]; ring
          _ = acc + n * 2 ^ shift := by rw [hn]
      rw [contDecodeAux_cons w (n % 128 + 128) _ shift acc hs
        (by rw [hmod]; omega)]
      rw [if_neg (by omega), hmod]
      rw [ih (n / 128) (Nat.div_lt_self (by omega) (by omega)) (shift + 7)
        (acc + n % 128 * 2 ^ shift) rest hw7 hacc7 (by rw [heq]; exact hbound)]
      rw [heq]

/-- Continuation round-trip: decoding the encoding of `n < 2 ^ w` yields `n`
and leaves the remaining bytes untouched. -/
theorem contDecode_contEncode (w n : Nat) (rest : List Nat)
    (hw : 0 < w) (hn : n < 2 ^ w) :
    contDecode w (contEncode n ++ rest) = some (n, rest) := by
  have := contDecodeAux_contEncode w n 0 0 rest hw (by simp) (by simpa using hn)
  simpa [contDecode] using this

/-- Bits of the `w`-bit complement `2 ^ w - 1 - a` of `a < 2 ^ w`. -/
theorem testBit_two_pow_sub_one_sub (w : Nat) :
    ∀ (a i : Nat), a < 2 ^ w →
      (2 ^ w - 1 - a).testBit i = (decide (i < w) && !a.testBit i) := by
  induction w with
  | zero =>
    intro a i ha
    interval_cases a
    simp
  | succ w ih =>
    intro a i ha
    have hval : 2 ^ (w + 1) - 1 - a = 2 * (2 ^ w - 1 - a / 2) + (1 - a % 2) := by
      have h2 : a % 2 < 2 := Nat.mod_lt _ (by omega)
      have hd : a / 2 < 2 ^ w := by
        have := Nat.div_add_mod a 2
        have hp : (2 : Nat) ^ (w + 1) = 2 * 2 ^ w := by rw [pow_succ]; ring
        omega
      have hp : (2 : Nat) ^ (w + 1) = 2 * 2 ^ w := by rw [pow_succ]; ring
      have := Nat.div_add_mod a 2
      omega
    cases i with
    | zero =>
      rw [hval]
      simp only [Nat.testBit_zero]
      have h2 : a % 2 = 0 ∨ a % 2 = 1 := by omega
      have hm : (2 * (2 ^ w - 1 - a / 2) + (1 - a % 2)) % 2 = 1 - a % 2 := by
        omega
      rcases h2 with h | h
      · simp [hm, h]
        omega
      · simp [hm, h]
    | succ i =>
      rw [hval]
      have hdiv : (2 * (2 ^ w - 1 - a / 2) + (1 - a % 2)) / 2 = 2 ^ w - 1 - a / 2 := by
        omega
      rw [Nat.testBit_succ, hdiv, Nat.testBit_succ]
      have hd : a / 2 < 2 ^ w := by
        have := Nat.div_add_mod a 2
        have hp : (2 : Nat) ^ (w + 1) = 2 * 2 ^ w := by rw [pow_succ]; ring
        omega
      rw [ih (a / 2) i hd]
      simp only [Nat.succ_lt_succ_iff]

/-- Xor with the all-ones `w`-bit mask is complement: for `a < 2 ^ w`,
`a ^^^ (2 ^ w - 1) = 2 ^ w - 1 - a`. -/
theorem xor_two_pow_sub_one (w a : Nat) (ha : a < 2 ^ w) :
    a ^^^ (2 ^ w - 1) = 2 ^ w - 1 - a := by
  apply Nat.eq_of_testBit_eq
  intro i
  rw [Nat.testBit_xor, Nat.testBit_two_pow_sub_one,
    testBit_two_pow_sub_one_sub w a i ha]
  by_cases hi : i < w
  · simp [hi]
  · have : a.testBit i = false := by
      apply Nat.testBit_lt_two_pow
      exact lt_of_lt_of_le ha (Nat.pow_le_pow_right (by omega) (by omega))
    simp [hi, this]

/-- Modelled from the spec: zig-zag encoding of a `w`-bit signed integer
(`musli-binary-common` zigzag codec, absent from the sources): map `x` to
`(x <<< 1) ^^^ (x >>> (w - 1))`, the shift right being arithmetic, computed
on the two's-complement `w`-bit pattern. -/
def zigEncode (w : Nat) (x : Int) : Nat :=
  ((2 * x) % (2 ^ w : Int)).toNat ^^^ (if x < 0 then 2 ^ w - 1 else 0)

/-- Modelled from the spec: zig-zag decoding (absent from the sources): map
`u` to `(u >>> 1) ^^^ -(u &&& 1)` over `w`-bit two's complement, then
reinterpret the pattern as signed. -/
def zigDecode (w : Nat) (u : Nat) : Int :=
  let r := (u >>> 1) ^^^ (if u % 2 = 1 then 2 ^ w - 1 else 0)
  if r < 2 ^ (w - 1) then (r : Int) else (r : Int) - 2 ^ w

/-- `zigDecode` at an even input drops the low bit and keeps the sign. -/
theorem zigDecode_even (w u : Nat) (h : u % 2 = 0) :
    zigDecode w u =
      if u / 2 < 2 ^ (w - 1) then ((u / 2 : Nat) : Int)
      else ((u / 2 : Nat) : Int) - 2 ^ w := by
  unfold zigDecode
  rw [Nat.shiftRight_one, h]
  norm_num

/-- `zigDecode` at an odd input complements within `w` bits. -/
theorem zigDecode_odd (w u : Nat) (h : u % 2 = 1) (hu : u / 2 < 2 ^ w) :
    zigDecode w u =
      if 2 ^ w - 1 - u / 2 < 2 ^ (w - 1) then ((2 ^ w - 1 - u / 2 : Nat) : Int)
      else ((2 ^ w - 1 - u / 2 : Nat) : Int) - 2 ^ w := by
  unfold zigDecode
  rw [Nat.shiftRight_one, h, if_pos rfl, xor_two_pow_sub_one w _ hu]

/-- Closed form of `zigEncode` on in-range inputs. -/
theorem zigEncode_eq (w : Nat) (x : Int) (hw : 0 < w)
    (hlo : -(2 ^ (w - 1)) ≤ x) (hhi : x < 2 ^ (w - 1)) :
    zigEncode w x = if 0 ≤ x then (2 * x).toNat else (-(2 * x) - 1).toNat := by
  have hsplit : (2 : Int) ^ w = 2 ^ (w - 1) * 2 := by
    rw [← pow_succ]
    congr 1
    omega
  by_cases hx : 0 ≤ x
  · have hmod : (2 * x) % (2 ^ w : Int) = 2 * x :=
      Int.emod_eq_of_lt (by omega) (by omega)
    rw [zigEncode, hmod, if_neg (by omega), if_pos hx]
    simp
  · have hmod : (2 * x) % (2 ^ w : Int) = 2 * x + 2 ^ w := by
      have h1 : (2 * x + 2 ^ w) % (2 ^ w : Int) = (2 * x) % 2 ^ w := by
        have h0 := Int.add_mul_emod_self_left (a := 2 * x) (b := (2 : Int) ^ w) (c := 1)
        rw [mul_one] at h0
        exact h0
      have h2 : (2 * x + 2 ^ w) % (2 ^ w : Int) = 2 * x + 2 ^ w :=
        Int.emod_eq_of_lt (by omega) (by omega)
      omega
    rw [zigEncode, hmod, if_pos (by omega), if_neg hx]
    have hlt : ((2 * x + 2 ^ w : Int)).toNat < 2 ^ w := by
      have hcast : ((2 ^ w : Nat) : Int) = 2 ^ w := by push_cast; ring
      omega
    rw [xor_two_pow_sub_one w _ hlt]
    have hcast : ((2 ^ w : Nat) : Int) = 2 ^ w := by push_cast; ring
    omega

/-- Zig-zag round-trip: decoding the encoding of an in-range signed `x`
yields `x` back. -/
theorem zigDecode_zigEncode (w : Nat) (x : Int) (hw : 0 < w)
    (hlo : -(2 ^ (w - 1)) ≤ x) (hhi : x < 2 ^ (w - 1)) :
    zigDecode w (zigEncode w x) = x := by
  have hsplit : (2 : Int) ^ w = 2 ^ (w - 1) * 2 := by
    rw [← pow_succ]
    congr 1
    omega
  have hcastw : ((2 ^ w : Nat) : Int) = 2 ^ w := by push_cast; ring
  have hcastw1 : ((2 ^ (w - 1) : Nat) : Int) = 2 ^ (w - 1) := by push_cast; ring
  rw [zigEncode_eq w x hw hlo hhi]
  by_cases hx : 0 ≤ x
  · rw [if_pos hx, zigDecode_even w _ (by omega)]
    have hdiv : (2 * x).toNat / 2 = x.toNat := by omega
    rw [hdiv, if_pos (by omega)]
    omega
  · rw [if_neg hx, zigDecode_odd w _ (by omega) (by omega)]
    rw [if_neg (by omega)]
    omega

/-! ### The `Variable` integer-encoding configuration

Translated from `impl IntegerEncoding for Variable` in
`musli-storage/src/integer_encoding.rs` (lines 75-113): unsigned integers go
straight through the continuation codec; signed integers pass through
zig-zag first. -/

/-- `Variable::encode_unsigned`: continuation-encode the value directly. -/
def Variable.encodeUnsigned (value : Nat) : List Nat :=
  contEncode value

/-- `Variable::decode_unsigned`: continuation-decode a `w`-bit value. -/
def Variable.decodeUnsigned (w : Nat) (reader : List Nat) : Option (Nat × List Nat) :=
  contDecode w reader

/-- `Variable::encode_signed`: continuation-encode the zig-zag image. -/
def Variable.encodeSigned (w : Nat) (value : Int) : List Nat :=
  contEncode (zigEncode w value)

/-- `Variable::decode_signed`: continuation-decode, then zig-zag decode. -/
def Variable.decodeSigned (w : Nat) (reader : List Nat) : Option (Int × List Nat) :=
  (contDecode w reader).map fun p => (zigDecode w p.1, p.2)

/-- C6: under the `Variable` configuration, `encode_signed` writes exactly
the continuation encoding of the zig-zag image, `decode_signed` inverts it,
the zig-zag map sends `0, -1, 1` to `0, 1, 2`, and `encode_unsigned` is the
plain continuation encoding of the value (no zig-zag step), inverted by
`decode_unsigned`. -/
theorem variable_signed_zigzag_continuation (w : Nat) (s : Int) (u : Nat)
    (rest rest' : List Nat) (hw : 2 ≤ w)
    (hlo : -(2 ^ (w - 1)) ≤ s) (hhi : s < 2 ^ (w - 1)) (hu : u < 2 ^ w) :
    Variable.encodeSigned w s = contEncode (zigEncode w s) ∧
    Variable.decodeSigned w (Variable.encodeSigned w s ++ rest) = some (s, rest) ∧
    zigEncode w 0 = 0 ∧ zigEncode w (-1) = 1 ∧ zigEncode w 1 = 2 ∧
    Variable.encodeUnsigned u = contEncode u ∧
    Variable.decodeUnsigned w (Variable.encodeUnsigned u ++ rest') =
      some (u, rest') := by
  have hw0 : 0 < w := by omega
  have hone : (1 : Int) < 2 ^ (w - 1) := by
    have h2 : (2 : Int) ^ 1 ≤ 2 ^ (w - 1) :=
      pow_le_pow_right₀ (by norm_num) (by omega)
    simpa using lt_of_lt_of_le (by norm_num) h2
  refine ⟨rfl, ?_, ?_, ?_, ?_, rfl, ?_⟩
  · have hbound : zigEncode w s < 2 ^ w := by
      rw [zigEncode_eq w s hw0 hlo hhi]
      have hsplit : (2 : Int) ^ w = 2 ^ (w - 1) * 2 := by
        rw [← pow_succ]
        congr 1
        omega
      have hcastw : ((2 ^ w : Nat) : Int) = 2 ^ w := by push_cast; ring
      have hcastw1 : ((2 ^ (w - 1) : Nat) : Int) = 2 ^ (w - 1) := by
        push_cast; ring
      by_cases hx : 0 ≤ s
      · rw [if_pos hx]; omega
      · rw [if_neg hx]; omega
    rw [Variable.decodeSigned, Variable.encodeSigned,
      contDecode_contEncode w _ rest hw0 hbound, Option.map_some']
    rw [zigDecode_zigEncode w s hw0 hlo hhi]
  · rw [zigEncode_eq w 0 hw0 (by omega) (by omega)]
    simp
  · rw [zigEncode_eq w (-1) hw0 (by omega) (by omega)]
    simp
  · rw [zigEncode_eq w 1 hw0 (by omega) hone]
    simp
  · rw [Variable.decodeUnsigned, Variable.encodeUnsigned,
      contDecode_contEncode w u rest' hw0 hu]

/-- Witness for C6 at `w = 16`, `s = -3`, `u = 1000`; in particular
`encode_continuation(1000)` starts with the test-vector bytes
`[0xE8, 0x07]`. -/
theorem variable_signed_zigzag_continuation_witness :
    Variable.encodeSigned 16 (-3) = contEncode (zigEncode 16 (-3)) ∧
    Variable.decodeSigned 16 (Variable.encodeSigned 16 (-3) ++ [9]) =
      some (-3, [9]) ∧
    zigEncode 16 0 = 0 ∧ zigEncode 16 (-1) = 1 ∧ zigEncode 16 1 = 2 ∧
    Variable.encodeUnsigned 1000 = contEncode 1000 ∧
    Variable.decodeUnsigned 16 (Variable.encodeUnsigned 1000 ++ []) =
      some (1000, []) :=
  variable_signed_zigzag_continuation 16 (-3) 1000 [9] []
    (by norm_num) (by norm_num) (by norm_num) (by norm_num)

/-! ### Binary-tagged wire format

`musli-wire/src/de.rs` decodes with the four-kind tag of `crate::tag`
(the revision the spec's section 9 calls the "tag" revision, kinds
Byte / Prefix / Sequence / Continuation).  `tag.rs` itself and the wire
encoder `en.rs` are not among the provided sources, so the tag byte layout
and the encoder are modelled from the spec: a kind in the upper bits of the
tag byte (two bits for the four-kind revision), the remaining six bits
carrying embedded data, all-ones meaning "read a continuation-encoded
length next".  The decoder functions below are translated from `de.rs`. -/

/-- The four tag kinds consumed by `WireDecoder` in `musli-wire/src/de.rs`. -/
inductive WKind where
  | byte
  | pfx
  | sequence
  | continuation
deriving DecidableEq

/-- Modelled from the spec: the bit pattern of each kind (two upper bits of
the tag byte). -/
def WKind.code : WKind → Nat
  | .byte => 0
  | .pfx => 64
  | .sequence => 128
  | .continuation => 192

/-- Modelled from the spec: build a tag byte from a kind and embedded data
(`Tag::new`); callers only pass `d ≤ 63`. -/
def mkTag (k : WKind) (d : Nat) : Nat :=
  k.code + d

/-- Modelled from the spec: the kind stored in a tag byte (`Tag::kind`). -/
def tagKind (b : Nat) : WKind :=
  match b / 64 with
  | 0 => .byte
  | 1 => .pfx
  | 2 => .sequence
  | _ => .continuation

/-- Modelled from the spec: the embedded data of a tag byte (`Tag::data`),
`none` when the six data bits are the all-ones sentinel. -/
def tagData (b : Nat) : Option Nat :=
  if b % 64 = 63 then none else some (b % 64)

theorem tagKind_mkTag (k : WKind) (d : Nat) (hd : d ≤ 63) :
    tagKind (mkTag k d) = k := by
  cases k
  · have h : (WKind.code .byte + d) / 64 = 0 := by simp [WKind.code]; omega
    simp [tagKind, mkTag, h]
  · have h : (WKind.code .pfx + d) / 64 = 1 := by simp [WKind.code]; omega
    simp [tagKind, mkTag, h]
  · have h : (WKind.code .sequence + d) / 64 = 2 := by simp [WKind.code]; omega
    simp [tagKind, mkTag, h]
  · have h : (WKind.code .continuation + d) / 64 = 3 := by simp [WKind.code]; omega
    simp [tagKind, mkTag, h]

theorem tagData_mkTag (k : WKind) (d : Nat) (hd : d < 63) :
    tagData (mkTag k d) = some d := by
  have h : mkTag k d % 64 = d := by cases k <;> simp [mkTag, WKind.code] <;> omega
  simp [tagData, h]
  omega

theorem tagData_mkTag_sentinel (k : WKind) : tagData (mkTag k 63) = none := by
  have h : mkTag k 63 % 64 = 63 := by cases k <;> simp [mkTag, WKind.code]
  simp [tagData, h]

mutual
/-- The values writable by the four-kind binary-tagged wire format, as
consumed by `WireDecoder::skip_any`.  Lists and pairs are separate mutual
inductives so that structural induction stays elementary. -/
inductive WireValue where
  | vByte (b : Nat)
  | vPfx (bs : List Nat)
  | vCont (n : Nat)
  | vSeq (l : WireList)
  | vMap (p : WirePairs)
/-- A list of wire values. -/
inductive WireList where
  | nil
  | cons (hd : WireValue) (tl : WireList)
/-- A list of key-value pairs of wire values. -/
inductive WirePairs where
  | nil
  | cons (key val : WireValue) (tl : WirePairs)
end

/-- Number of elements of a `WireList`. -/
def wlen : WireList → Nat
  | .nil => 0
  | .cons _ tl => wlen tl + 1

/-- Number of pairs of a `WirePairs`. -/
def wplen : WirePairs → Nat
  | .nil => 0
  | .cons _ _ tl => wplen tl + 1

/-- Modelled from the spec: header of a length-carrying wire value: embed
lengths below the sentinel, otherwise emit the sentinel and a
continuation-encoded length. -/
def encodeHeader (k : WKind) (len : Nat) : List Nat :=
  if len < 63 then [mkTag k len] else mkTag k 63 :: contEncode len

mutual
/-- Modelled from the spec: the wire encoding matching `WireDecoder`
(`musli-wire/src/en.rs` is absent from the sources): a small byte is
embedded in a Byte tag, otherwise follows it; Prefix values carry their
byte length; sequences record their element count; maps and structs use
the same Sequence-kind header but record keys and values separately (twice
the pair count — forced by `shared_decode_pair_sequence` in `de.rs`, which
halves the recorded length); Continuation values embed small integers in
the tag and continuation-encode the rest. -/
def encodeWire : WireValue → List Nat
  | .vByte b => if b < 63 then [mkTag .byte b] else [mkTag .byte 63, b]
  | .vPfx bs => encodeHeader .pfx bs.length ++ bs
  | .vCont n =>
    if n < 63 then [mkTag .continuation n]
    else mkTag .continuation 63 :: contEncode n
  | .vSeq l => encodeHeader .sequence (wlen l) ++ encodeWireList l
  | .vMap p => encodeHeader .sequence (2 * wplen p) ++ encodeWirePairs p

/-- Concatenated encodings of the elements of a list. -/
def encodeWireList : WireList → List Nat
  | .nil => []
  | .cons hd tl => encodeWire hd ++ encodeWireList tl

/-- Concatenated encodings of the pairs of a map, key then value. -/
def encodeWirePairs : WirePairs → List Nat
  | .nil => []
  | .cons key val tl => encodeWire key ++ encodeWire val ++ encodeWirePairs tl
end

mutual
/-- Bounds under which the modelled encoding is meaningful: every
continuation-encoded quantity fits its target width (`usize` lengths are
64-bit, continuation payloads 128-bit). -/
def wfWire : WireValue → Prop
  | .vByte _ => True
  | .vPfx bs => bs.length < 2 ^ 64
  | .vCont n => n < 2 ^ 128
  | .vSeq l => wlen l < 2 ^ 64 ∧ wfWireList l
  | .vMap p => 2 * wplen p < 2 ^ 64 ∧ wfWirePairs p

def wfWireList : WireList → Prop
  | .nil => True
  | .cons hd tl => wfWire hd ∧ wfWireList tl

def wfWirePairs : WirePairs → Prop
  | .nil => True
  | .cons key val tl => wfWire key ∧ wfWire val ∧ wfWirePairs tl
end

mutual
/-- Nesting depth of a wire value, used as recursion fuel for `skipAny`. -/
def wdepth : WireValue → Nat
  | .vByte _ => 1
  | .vPfx _ => 1
  | .vCont _ => 1
  | .vSeq l => wdepthList l + 1
  | .vMap p => wdepthPairs p + 1

def wdepthList : WireList → Nat
  | .nil => 0
  | .cons hd tl => max (wdepth hd) (wdepthList tl)

def wdepthPairs : WirePairs → Nat
  | .nil => 0
  | .cons key val tl => max (max (wdepth key) (wdepth val)) (wdepthPairs tl)
end

/-- `Reader::skip` for the slice reader (`musli-binary-common/src/reader.rs`
lines 137-145): drop `n` bytes, failing with underflow when fewer remain. -/
def skipN (n : Nat) (l : List Nat) : Option (List Nat) :=
  if n ≤ l.length then some (l.drop n) else none

/-- Run one skip per iteration, the loop body of the `Kind::Sequence` arm of
`skip_any` (`for _ in 0..len { self.skip_any()?; }`). -/
def skipSeqF (f : List Nat → Option (List Nat)) : Nat → List Nat → Option (List Nat)
  | 0, input => some input
  | n + 1, input =>
    match f input with
    | none => none
    | some r => skipSeqF f n r

/-- Translation of `WireDecoder::skip_any` (`musli-wire/src/de.rs` lines
66-103), made total with explicit fuel: read a tag byte; a Byte tag skips
one more byte unless the value was embedded; a Prefix tag reads the length
(embedded or continuation-encoded `usize`) and skips that many bytes; a
Sequence tag reads the length and invokes `skip_any` that many times; a
Continuation tag decodes and discards a 128-bit continuation integer unless
the value was embedded. -/
def skipAny : Nat → List Nat → Option (List Nat)
  | 0, _ => none
  | fuel + 1, input =>
    match input with
    | [] => none
    | b :: r =>
      match tagKind b with
      | .byte =>
        match tagData b with
        | none => skipN 1 r
        | some _ => some r
      | .pfx =>
        match
          (match tagData b with
           | some len => some (len, r)
           | none => contDecode 64 r) with
        | none => none
        | some (len, r') => skipN len r'
      | .sequence =>
        match
          (match tagData b with
           | some len => some (len, r)
           | none => contDecode 64 r) with
        | none => none
        | some (len, r') => skipSeqF (skipAny fuel) len r'
      | .continuation =>
        match tagData b with
        | none => (contDecode 128 r).map Prod.snd
        | some _ => some r

/-- Translation of `WireDecoder::decode_sequence_len` (`de.rs` lines
106-121): read a tag byte, require the Sequence kind, and return the
embedded or continuation-encoded length. -/
def decodeSequenceLen (input : List Nat) : Option (Nat × List Nat) :=
  match input with
  | [] => none
  | b :: r =>
    match tagKind b with
    | .sequence =>
      match tagData b with
      | some len => some (len, r)
      | none => contDecode 64 r
    | _ => none

/-- Translation of `WireDecoder::shared_decode_pair_sequence` (`de.rs`
lines 123-128): decode the sequence length and build a remaining-counter
decoder over `len / 2` pairs. -/
def sharedDecodePairSequence (input : List Nat) : Option (Nat × List Nat) :=
  (decodeSequenceLen input).map fun p => (p.1 / 2, p.2)

theorem skipN_append (bs rest : List Nat) :
    skipN bs.length (bs ++ rest) = some rest := by
  simp [skipN, List.drop_left]

theorem skipAny_succ_cons (f b : Nat) (r : List Nat) :
    skipAny (f + 1) (b :: r) =
      match tagKind b with
      | .byte =>
        match tagData b with
        | none => skipN 1 r
        | some _ => some r
      | .pfx =>
        match
          (match tagData b with
           | some len => some (len, r)
           | none => contDecode 64 r) with
        | none => none
        | some (len, r') => skipN len r'
      | .sequence =>
        match
          (match tagData b with
           | some len => some (len, r)
           | none => contDecode 64 r) with
        | none => none
        | some (len, r') => skipSeqF (skipAny f) len r'
      | .continuation =>
        match tagData b with
        | none => (contDecode 128 r).map Prod.snd
        | some _ => some r := rfl

theorem skipAny_encodeWire_fueled :
    ∀ fuel (v : WireValue) (rest : List Nat), wfWire v → wdepth v ≤ fuel →
      skipAny fuel (encodeWire v ++ rest) = some rest := by
  intro fuel
  induction fuel with
  | zero =>
    intro v rest hwf hd
    exfalso
    cases v <;> simp [wdepth] at hd
  | succ f ih =>
    have ihList : ∀ (k : Nat) (l : WireList) (rest : List Nat), wlen l ≤ k →
        wfWireList l → wdepthList l ≤ f →
        skipSeqF (skipAny f) (wlen l) (encodeWireList l ++ rest) = some rest := by
      intro k
      induction k with
      | zero =>
        intro l rest hk _ _
        cases l with
        | nil => simp [wlen, encodeWireList, skipSeqF]
        | cons hd tl => simp [wlen] at hk
      | succ k ihk =>
        intro l rest hk hwf hdep
        cases l with
        | nil => simp [wlen, encodeWireList, skipSeqF]
        | cons hd tl =>
          obtain ⟨hwf1, hwf2⟩ := hwf
          simp only [wdepthList] at hdep
          simp only [wlen, encodeWireList, List.append_assoc, skipSeqF,
            ih hd _ hwf1 (le_trans (le_max_left _ _) hdep)]
          exact ihk tl rest (by simp [wlen] at hk; omega) hwf2
            (le_trans (le_max_right _ _) hdep)
    have ihPairs : ∀ (k : Nat) (p : WirePairs) (rest : List Nat), wplen p ≤ k →
        wfWirePairs p → wdepthPairs p ≤ f →
        skipSeqF (skipAny f) (2 * wplen p) (encodeWirePairs p ++ rest) =
          some rest := by
      intro k
      induction k with
      | zero =>
        intro p rest hk _ _
        cases p with
        | nil => simp [wplen, encodeWirePairs, skipSeqF]
        | cons key val tl => simp [wplen] at hk
      | succ k ihk =>
        intro p rest hk hwf hdep
        cases p with
        | nil => simp [wplen, encodeWirePairs, skipSeqF]
        | cons key val tl =>
          obtain ⟨hwf1, hwf2, hwf3⟩ := hwf
          simp only [wdepthPairs] at hdep
          have hn : 2 * wplen (WirePairs.cons key val tl) =
              2 * wplen tl + 1 + 1 := by
            simp [wplen]
            omega
          rw [hn]
          simp only [encodeWirePairs, List.append_assoc, skipSeqF,
            ih key _ hwf1
              (le_trans (le_trans (le_max_left _ _) (le_max_left _ _)) hdep),
            ih val _ hwf2
              (le_trans (le_trans (le_max_right _ _) (le_max_left _ _)) hdep)]
          exact ihk tl rest (by simp [wplen] at hk; omega) hwf3
            (le_trans (le_max_right _ _) hdep)
    intro v rest hwf hd
    cases v with
    | vByte b =>
      by_cases hb : b < 63
      · simp only [encodeWire, if_pos hb, List.cons_append, List.nil_append,
          skipAny_succ_cons, tagKind_mkTag .byte b (by omega),
          tagData_mkTag .byte b hb]
      · simp only [encodeWire, if_neg hb, List.cons_append, List.nil_append,
          skipAny_succ_cons, tagKind_mkTag .byte 63 (by omega),
          tagData_mkTag_sentinel .byte]
        simp [skipN]
    | vPfx bs =>
      have hwfb : bs.length < 2 ^ 64 := hwf
      by_cases hb : bs.length < 63
      · simp only [encodeWire, encodeHeader, if_pos hb, List.cons_append,
          List.nil_append, List.append_assoc, skipAny_succ_cons,
          tagKind_mkTag .pfx bs.length (by omega), tagData_mkTag .pfx bs.length hb]
        exact skipN_append bs rest
      · simp only [encodeWire, encodeHeader, if_neg hb, List.cons_append,
          List.append_assoc, skipAny_succ_cons,
          tagKind_mkTag .pfx 63 (by omega), tagData_mkTag_sentinel .pfx,
          contDecode_contEncode 64 bs.length (bs ++ rest) (by norm_num) hwfb]
        exact skipN_append bs rest
    | vCont n =>
      have hwfn : n < 2 ^ 128 := hwf
      by_cases hn : n < 63
      · simp only [encodeWire, if_pos hn, List.cons_append, List.nil_append,
          skipAny_succ_cons, tagKind_mkTag .continuation n (by omega),
          tagData_mkTag .continuation n hn]
      · simp only [encodeWire, if_neg hn, List.cons_append,
          skipAny_succ_cons, tagKind_mkTag .continuation 63 (by omega),
          tagData_mkTag_sentinel .continuation,
          contDecode_contEncode 128 n rest (by norm_num) hwfn]
        rfl
    | vSeq l =>
      obtain ⟨hwf1, hwf2⟩ := hwf
      have hdl : wdepthList l ≤ f := by
        simp only [wdepth] at hd
        omega
      by_cases hl : wlen l < 63
      · simp only [encodeWire, encodeHeader, if_pos hl, List.cons_append,
          List.nil_append, List.append_assoc, skipAny_succ_cons,
          tagKind_mkTag .sequence (wlen l) (by omega),
          tagData_mkTag .sequence (wlen l) hl]
        exact ihList (wlen l) l rest le_rfl hwf2 hdl
      · simp only [encodeWire, encodeHeader, if_neg hl, List.cons_append,
          List.append_assoc, skipAny_succ_cons,
          tagKind_mkTag .sequence 63 (by omega), tagData_mkTag_sentinel .sequence,
          contDecode_contEncode 64 (wlen l) (encodeWireList l ++ rest)
            (by norm_num) hwf1]
        exact ihList (wlen l) l rest le_rfl hwf2 hdl
    | vMap p =>
      obtain ⟨hwf1, hwf2⟩ := hwf
      have hdp : wdepthPairs p ≤ f := by
        simp only [wdepth] at hd
        omega
      by_cases hl : 2 * wplen p < 63
      · simp only [encodeWire, encodeHeader, if_pos hl, List.cons_append,
          List.nil_append, List.append_assoc, skipAny_succ_cons,
          tagKind_mkTag .sequence (2 * wplen p) (by omega),
          tagData_mkTag .sequence (2 * wplen p) hl]
        exact ihPairs (wplen p) p rest le_rfl hwf2 hdp
      · simp only [encodeWire, encodeHeader, if_neg hl, List.cons_append,
          List.append_assoc, skipAny_succ_cons,
          tagKind_mkTag .sequence 63 (by omega), tagData_mkTag_sentinel .sequence,
          contDecode_contEncode 64 (2 * wplen p) (encodeWirePairs p ++ rest)
            (by norm_num) hwf1]
        exact ihPairs (wplen p) p rest le_rfl hwf2 hdp

/-- C2 (amended): for every well-formed value of the four-kind binary-tagged
wire format, `skip_any` on a reader positioned at the start of its encoding
succeeds and consumes exactly `len(encode(v))` bytes, leaving the reader at
the boundary of the next value.  A map or struct records keys and values
separately (twice the pair count) under the Sequence kind, and `skip_any`
skips exactly that recorded number of inner values — there is no separate
pair-sequence branch doubling the decoded length. -/
theorem skip_any_consumes_encoding (v : WireValue) (rest : List Nat)
    (fuel : Nat) (hwf : wfWire v) (hfuel : wdepth v ≤ fuel) :
    skipAny fuel (encodeWire v ++ rest) = some rest :=
  skipAny_encodeWire_fueled fuel v rest hwf hfuel

/-- Witness for C2: skipping the encoding of the one-pair map
`{5: 7}` consumes exactly its three bytes and leaves the two following
values untouched. -/
theorem skip_any_consumes_encoding_witness :
    wfWire (WireValue.vMap (.cons (.vByte 5) (.vByte 7) .nil)) ∧
    wdepth (WireValue.vMap (.cons (.vByte 5) (.vByte 7) .nil)) ≤ 2 ∧
    skipAny 2 (encodeWire (WireValue.vMap (.cons (.vByte 5) (.vByte 7) .nil))
      ++ [8, 9]) = some [8, 9] :=
  ⟨⟨by norm_num [wplen], trivial, trivial, trivial⟩, by simp [wdepth, wdepthPairs],
    skip_any_consumes_encoding _ [8, 9] 2
      ⟨by norm_num [wplen], trivial, trivial, trivial⟩
      (by simp [wdepth, wdepthPairs])⟩

/-- The skip procedure exactly as C2 words it for pair sequences: upon a
map/struct header, decode the length and invoke the skip twice that many
times; all other cases as in `skipAny`. -/
def skipAnyPairDoubled : Nat → List Nat → Option (List Nat)
  | 0, _ => none
  | fuel + 1, input =>
    match input with
    | [] => none
    | b :: r =>
      match tagKind b with
      | .byte =>
        match tagData b with
        | none => skipN 1 r
        | some _ => some r
      | .pfx =>
        match
          (match tagData b with
           | some len => some (len, r)
           | none => contDecode 64 r) with
        | none => none
        | some (len, r') => skipN len r'
      | .sequence =>
        match
          (match tagData b with
           | some len => some (len, r)
           | none => contDecode 64 r) with
        | none => none
        | some (len, r') => skipSeqF (skipAnyPairDoubled fuel) (2 * len) r'
      | .continuation =>
        match tagData b with
        | none => (contDecode 128 r).map Prod.snd
        | some _ => some r

/-- Counterexample for C2 as stated: the encoding of the one-pair map
`{5: 7}` records length 2; the decoder's `skip_any` skips 2 inner values,
consuming exactly the map's three bytes, while the claim's rule — skip
twice the decoded length — would consume the two following values as
well. -/
theorem skip_any_pair_double_counterexample :
    encodeWire (WireValue.vMap (.cons (.vByte 5) (.vByte 7) .nil)) =
      [130, 5, 7] ∧
    skipAny 2 ([130, 5, 7] ++ [8, 9]) = some [8, 9] ∧
    skipAnyPairDoubled 2 ([130, 5, 7] ++ [8, 9]) = some [] := by
  refine ⟨?_, ?_, ?_⟩ <;> rfl

/-- C3 (amended): the length recorded after a map/struct header is `2 * n`
for `n` pairs — keys and values counted separately — and
`shared_decode_pair_sequence` reads that recorded length and halves it,
yielding exactly `n` key-value pairs. -/
theorem pair_sequence_records_twice_pairs (p : WirePairs) (rest : List Nat)
    (hwf : 2 * wplen p < 2 ^ 64) :
    decodeSequenceLen (encodeWire (.vMap p) ++ rest) =
      some (2 * wplen p, encodeWirePairs p ++ rest) ∧
    sharedDecodePairSequence (encodeWire (.vMap p) ++ rest) =
      some (wplen p, encodeWirePairs p ++ rest) := by
  have hlen : decodeSequenceLen (encodeWire (.vMap p) ++ rest) =
      some (2 * wplen p, encodeWirePairs p ++ rest) := by
    by_cases hl : 2 * wplen p < 63
    · simp only [encodeWire, encodeHeader, if_pos hl, List.cons_append,
        List.nil_append, List.append_assoc, decodeSequenceLen,
        tagKind_mkTag .sequence (2 * wplen p) (by omega),
        tagData_mkTag .sequence (2 * wplen p) hl]
    · simp only [encodeWire, encodeHeader, if_neg hl, List.cons_append,
        List.append_assoc, decodeSequenceLen,
        tagKind_mkTag .sequence 63 (by omega), tagData_mkTag_sentinel .sequence,
        contDecode_contEncode 64 (2 * wplen p) (encodeWirePairs p ++ rest)
          (by norm_num) hwf]
  refine ⟨hlen, ?_⟩
  rw [sharedDecodePairSequence, hlen, Option.map_some']
  congr 1
  simp [Nat.mul_div_cancel_left _ (by norm_num : (0 : Nat) < 2)]

/-- Witness for C3 (amended) on a concrete two-pair map: the recorded
length is 4 and the decoder yields 2 pairs. -/
theorem pair_sequence_records_twice_pairs_witness :
    2 * wplen (.cons (.vByte 1) (.vByte 2) (.cons (.vByte 3) (.vByte 4) .nil))
      < 2 ^ 64 ∧
    sharedDecodePairSequence (encodeWire (.vMap (.cons (.vByte 1) (.vByte 2)
      (.cons (.vByte 3) (.vByte 4) .nil))) ++ []) =
      some (2, encodeWirePairs (.cons (.vByte 1) (.vByte 2)
        (.cons (.vByte 3) (.vByte 4) .nil)) ++ []) :=
  ⟨by norm_num [wplen],
    (pair_sequence_records_twice_pairs _ [] (by norm_num [wplen])).2⟩

/-- Counterexample for C3 as stated: encoding the two-pair map
`{1: 2, 3: 4}` records length 4 after the header — not the pair count 2 —
and decoding reads that 4 but yields only 2 pairs, not 4. -/
theorem pair_sequence_recorded_length_counterexample :
    encodeWire (WireValue.vMap (.cons (.vByte 1) (.vByte 2)
      (.cons (.vByte 3) (.vByte 4) .nil))) = [132, 1, 2, 3, 4] ∧
    decodeSequenceLen [132, 1, 2, 3, 4] = some (4, [1, 2, 3, 4]) ∧
    sharedDecodePairSequence [132, 1, 2, 3, 4] = some (2, [1, 2, 3, 4]) := by
  refine ⟨?_, ?_, ?_⟩ <;> rfl

/-! ### The eight-kind `TypeTag` of `musli-wire/src/types.rs` -/

/-- `LEN_MASK` (types.rs line 6): the lower five bits of a type tag. -/
def LEN_MASK : Nat := 31

/-- `TypeKind` (types.rs lines 14-33). -/
inductive TypeKind where
  | mark
  | byte
  | fixed
  | continuation
  | prefixed
  | sequence
  | pairSequence
  | unknown
deriving DecidableEq

/-- The `repr(u8)` discriminant of each kind (the upper three bits of the
tag byte). -/
def TypeKind.code : TypeKind → Nat
  | .mark => 0
  | .byte => 32
  | .fixed => 64
  | .continuation => 96
  | .prefixed => 128
  | .sequence => 160
  | .pairSequence => 192
  | .unknown => 224

/-- `TypeTag` (types.rs lines 47-52): a kind and the stored length bits. -/
structure TypeTag where
  kind : TypeKind
  len : Nat
deriving DecidableEq

/-- `TypeTag::new` (types.rs lines 57-62): store `len` when below
`LEN_MASK`, otherwise store `LEN_MASK` itself. -/
def TypeTag.new (kind : TypeKind) (len : Nat) : TypeTag :=
  ⟨kind, if len < LEN_MASK then len else LEN_MASK⟩

/-- `TypeTag::byte` (types.rs lines 111-113): `self.kind as u8 | self.len`. -/
def TypeTag.byte (t : TypeTag) : Nat :=
  t.kind.code ||| t.len

/-- `TypeTag::from_byte` (types.rs lines 92-107) on a `u8` input `b < 256`:
the length is `b & LEN_MASK` and the kind comes from the upper bits, with
unmatched kind bits mapping to `Unknown`. -/
def TypeTag.fromByte (b : Nat) : TypeTag :=
  let len := b % 32
  let kind : TypeKind :=
    match b / 32 with
    | 0 => .mark
    | 1 => .byte
    | 2 => .fixed
    | 3 => .continuation
    | 4 => .prefixed
    | 5 => .sequence
    | 6 => .pairSequence
    | _ => .unknown
  ⟨kind, len⟩

/-- `TypeTag::len` (types.rs lines 117-123), named `lenOpt` here to avoid
clashing with the field: `none` when the stored bits are the sentinel. -/
def TypeTag.lenOpt (t : TypeTag) : Option Nat :=
  if t.len = LEN_MASK then none else some t.len

/-- Or-ing a kind discriminant with five low bits is addition. -/
theorem lor32 (c b : Nat) (hc : c < 8) (hb : b < 32) :
    (32 * c) ||| b = 32 * c + b := by
  interval_cases c <;> interval_cases b <;> decide

theorem typeTag_fromByte_byte (k : TypeKind) (l : Nat) (hl : l < 32) :
    TypeTag.fromByte (TypeTag.byte ⟨k, l⟩) = ⟨k, l⟩ := by
  have hmodl : l % 32 = l := Nat.mod_eq_of_lt hl
  cases k
  case mark =>
    simp [TypeTag.byte, TypeKind.code, TypeTag.fromByte, Nat.div_eq_of_lt hl,
      hmodl]
  case byte =>
    have h := lor32 1 l (by norm_num) hl
    norm_num at h
    have hdiv : (32 + l) / 32 = 1 := by omega
    have hmod : (32 + l) % 32 = l := by omega
    simp [TypeTag.byte, TypeKind.code, TypeTag.fromByte, h, hdiv, hmod]
  case fixed =>
    have h := lor32 2 l (by norm_num) hl
    norm_num at h
    have hdiv : (64 + l) / 32 = 2 := by omega
    have hmod : (64 + l) % 32 = l := by omega
    simp [TypeTag.byte, TypeKind.code, TypeTag.fromByte, h, hdiv, hmod]
  case continuation =>
    have h := lor32 3 l (by norm_num) hl
    norm_num at h
    have hdiv : (96 + l) / 32 = 3 := by omega
    have hmod : (96 + l) % 32 = l := by omega
    simp [TypeTag.byte, TypeKind.code, TypeTag.fromByte, h, hdiv, hmod]
  case prefixed =>
    have h := lor32 4 l (by norm_num) hl
    norm_num at h
    have hdiv : (128 + l) / 32 = 4 := by omega
    have hmod : (128 + l) % 32 = l := by omega
    simp [TypeTag.byte, TypeKind.code, TypeTag.fromByte, h, hdiv, hmod]
  case sequence =>
    have h := lor32 5 l (by norm_num) hl
    norm_num at h
    have hdiv : (160 + l) / 32 = 5 := by omega
    have hmod : (160 + l) % 32 = l := by omega
    simp [TypeTag.byte, TypeKind.code, TypeTag.fromByte, h, hdiv, hmod]
  case pairSequence =>
    have h := lor32 6 l (by norm_num) hl
    norm_num at h
    have hdiv : (192 + l) / 32 = 6 := by omega
    have hmod : (192 + l) % 32 = l := by omega
    simp [TypeTag.byte, TypeKind.code, TypeTag.fromByte, h, hdiv, hmod]
  case unknown =>
    have h := lor32 7 l (by norm_num) hl
    norm_num at h
    have hdiv : (224 + l) / 32 = 7 := by omega
    have hmod : (224 + l) % 32 = l := by omega
    simp [TypeTag.byte, TypeKind.code, TypeTag.fromByte, h, hdiv, hmod]

/-- C10: for every kind and every `u8` length argument, `TypeTag::new`
silently clamps the stored length to the sentinel `0b11111 = 31` when
`len ≥ 31` instead of failing, the constructed tag round-trips through
`byte` and `from_byte`, and `TypeTag::len` returns `none` exactly when the
stored bits equal the sentinel — so an embedded length of 31 or more is
never representable. -/
theorem type_tag_clamp_roundtrip (k : TypeKind) (len : Nat) (hlen : len < 256) :
    (TypeTag.new k len).len = (if len < 31 then len else 31) ∧
    TypeTag.fromByte (TypeTag.new k len).byte = TypeTag.new k len ∧
    ((TypeTag.new k len).lenOpt = none ↔ 31 ≤ len) ∧
    (∀ t : TypeTag, t.lenOpt = none ↔ t.len = 31) := by
  have hstored : (TypeTag.new k len).len = (if len < 31 then len else 31) := by
    simp [TypeTag.new, LEN_MASK]
  refine ⟨hstored, ?_, ?_, ?_⟩
  · have hnew : TypeTag.new k len = ⟨k, if len < 31 then len else 31⟩ := by
      simp [TypeTag.new, LEN_MASK]
    rw [hnew]
    exact typeTag_fromByte_byte k _ (by split <;> omega)
  · by_cases h : len < 31
    · rw [TypeTag.lenOpt, hstored, if_pos h]
      simp [LEN_MASK]
      omega
    · rw [TypeTag.lenOpt, hstored, if_neg h]
      simp [LEN_MASK]
      omega
  · intro t
    by_cases h : t.len = 31 <;> simp [TypeTag.lenOpt, LEN_MASK, h]

/-- Witness for C10 at kind `PairSequence` and length 40 (clamped to 31). -/
theorem type_tag_clamp_roundtrip_witness :
    (TypeTag.new .pairSequence 40).len = (if 40 < 31 then 40 else 31) ∧
    TypeTag.fromByte (TypeTag.new .pairSequence 40).byte =
      TypeTag.new .pairSequence 40 ∧
    ((TypeTag.new .pairSequence 40).lenOpt = none ↔ 31 ≤ 40) ∧
    (∀ t : TypeTag, t.lenOpt = none ↔ t.len = 31) :=
  type_tag_clamp_roundtrip .pairSequence 40 (by norm_num)

/-! ### The `Limit` reader adapter (musli-binary-common/src/reader.rs)

The underlying reader is the borrowing slice reader `impl Reader for &[u8]`
(reader.rs lines 127-169); `Limit` wraps it with a remaining-bytes budget
(lines 314-393).  Each operation returns its result together with the final
reader state, so that non-advancement on failure is expressible. -/

/-- `&[u8]::read_bytes` (reader.rs lines 148-156): split off `n` head bytes
or fail with underflow. -/
def sliceReadBytes (n : Nat) (l : List Nat) : Option (List Nat × List Nat) :=
  if n ≤ l.length then some (l.take n, l.drop n) else none

/-- `Reader::read_byte` via the default `read_array::<1>` path (reader.rs
lines 57-69): take the head byte. -/
def sliceReadByte (l : List Nat) : Option (Nat × List Nat) :=
  match l with
  | [] => none
  | b :: r => some (b, r)

/-- The `Limit` reader state (reader.rs lines 314-317): a remaining budget
and the wrapped reader. -/
structure Limit where
  remaining : Nat
  reader : List Nat
deriving DecidableEq

/-- `Limit::bounds_check` (reader.rs lines 323-332): `checked_sub` the
budget, mutating it on success and failing without touching the wrapped
reader otherwise. -/
def Limit.boundsCheck (st : Limit) (n : Nat) : Option Limit :=
  if n ≤ st.remaining then some ⟨st.remaining - n, st.reader⟩ else none

/-- `Limit::skip` (reader.rs lines 364-368): bounds-check, then delegate. -/
def Limit.skip (st : Limit) (n : Nat) : Option Unit × Limit :=
  match st.boundsCheck n with
  | none => (none, st)
  | some st' =>
    match skipN n st'.reader with
    | none => (none, st')
    | some r => (some (), ⟨st'.remaining, r⟩)

/-- `Limit::read_bytes` (reader.rs lines 370-374). -/
def Limit.readBytes (st : Limit) (n : Nat) : Option (List Nat) × Limit :=
  match st.boundsCheck n with
  | none => (none, st)
  | some st' =>
    match sliceReadBytes n st'.reader with
    | none => (none, st')
    | some (bs, r) => (some bs, ⟨st'.remaining, r⟩)

/-- `Limit::read` into a caller buffer of length `n` (reader.rs lines
376-380); the slice reader's `read` copies the same head bytes that
`read_bytes` returns. -/
def Limit.read (st : Limit) (n : Nat) : Option (List Nat) × Limit :=
  match st.boundsCheck n with
  | none => (none, st)
  | some st' =>
    match sliceReadBytes n st'.reader with
    | none => (none, st')
    | some (bs, r) => (some bs, ⟨st'.remaining, r⟩)

/-- `Limit::read_byte` (reader.rs lines 382-386): bounds-check `1`, then
delegate. -/
def Limit.readByte (st : Limit) : Option Nat × Limit :=
  match st.boundsCheck 1 with
  | none => (none, st)
  | some st' =>
    match sliceReadByte st'.reader with
    | none => (none, st')
    | some (b, r) => (some b, ⟨st'.remaining, r⟩)

/-- `Limit::read_array::<N>` (reader.rs lines 388-392), the array read via
`read_bytes`. -/
def Limit.readArray (st : Limit) (n : Nat) : Option (List Nat) × Limit :=
  match st.boundsCheck n with
  | none => (none, st)
  | some (st' : Limit) =>
    match sliceReadBytes n st'.reader with
    | none => (none, st')
    | some (bs, r) => (some bs, ⟨st'.remaining, r⟩)

/-- C9: with remaining budget `r`, any `skip`, `read`, `read_byte`,
`read_array` or `read_bytes` requesting `n > r` bytes fails and leaves the
wrapped reader (and the budget) untouched; a request of `n ≤ r` bytes
decrements the budget by exactly `n` and delegates to the underlying
reader, consuming exactly its first `n` bytes. -/
theorem limit_budget_enforced (r n : Nat) (data : List Nat) :
    (r < n →
      Limit.skip ⟨r, data⟩ n = (none, ⟨r, data⟩) ∧
      Limit.readBytes ⟨r, data⟩ n = (none, ⟨r, data⟩) ∧
      Limit.read ⟨r, data⟩ n = (none, ⟨r, data⟩) ∧
      Limit.readArray ⟨r, data⟩ n = (none, ⟨r, data⟩)) ∧
    (r = 0 → Limit.readByte ⟨r, data⟩ = (none, ⟨r, data⟩)) ∧
    (n ≤ r → n ≤ data.length →
      Limit.skip ⟨r, data⟩ n = (some (), ⟨r - n, data.drop n⟩) ∧
      Limit.readBytes ⟨r, data⟩ n = (some (data.take n), ⟨r - n, data.drop n⟩) ∧
      Limit.read ⟨r, data⟩ n = (some (data.take n), ⟨r - n, data.drop n⟩) ∧
      Limit.readArray ⟨r, data⟩ n =
        (some (data.take n), ⟨r - n, data.drop n⟩)) ∧
    (∀ b t, data = b :: t → 1 ≤ r →
      Limit.readByte ⟨r, data⟩ = (some b, ⟨r - 1, t⟩)) := by
  refine ⟨?_, ?_, ?_, ?_⟩
  · intro hrn
    have hbc : Limit.boundsCheck ⟨r, data⟩ n = none := by
      simp [Limit.boundsCheck]
      omega
    refine ⟨?_, ?_, ?_, ?_⟩ <;>
      simp [Limit.skip, Limit.readBytes, Limit.read, Limit.readArray, hbc]
  · intro hr
    have hbc : Limit.boundsCheck ⟨r, data⟩ 1 = none := by
      simp [Limit.boundsCheck]
      omega
    simp [Limit.readByte, hbc]
  · intro hnr hnd
    have hbc : Limit.boundsCheck ⟨r, data⟩ n = some ⟨r - n, data⟩ := by
      simp [Limit.boundsCheck, hnr]
    have hrb : sliceReadBytes n data = some (data.take n, data.drop n) := by
      simp [sliceReadBytes, hnd]
    have hsk : skipN n data = some (data.drop n) := by
      simp [skipN, hnd]
    refine ⟨?_, ?_, ?_, ?_⟩ <;>
      simp [Limit.skip, Limit.readBytes, Limit.read, Limit.readArray,
        hbc, hrb, hsk]
  · intro b t hdata hr
    subst hdata
    have hbc : Limit.boundsCheck ⟨r, b :: t⟩ 1 = some ⟨r - 1, b :: t⟩ := by
      simp [Limit.boundsCheck, hr]
    simp [Limit.readByte, hbc, sliceReadByte]

/-- Witness for C9: a budget of 1 refuses a 2-byte skip without touching
the reader, and a budget of 2 lets a 1-byte read through, decrementing. -/
theorem limit_budget_enforced_witness :
    Limit.skip ⟨1, [5, 6]⟩ 2 = (none, ⟨1, [5, 6]⟩) ∧
    Limit.readBytes ⟨2, [5, 6]⟩ 1 = (some [5], ⟨1, [6]⟩) ∧
    Limit.readByte ⟨2, [5, 6]⟩ = (some 5, ⟨1, [6]⟩) :=
  ⟨((limit_budget_enforced 1 2 [5, 6]).1 (by norm_num)).1,
   by
    have h := ((limit_budget_enforced 2 1 [5, 6]).2.2.1 (by norm_num)
      (by norm_num)).2.1
    simpa using h,
   by
    have h := (limit_budget_enforced 2 1 [5, 6]).2.2.2 5 [6] rfl (by norm_num)
    simpa using h⟩

/-! ### The JSON number parser (musli-json/src/reader/integer.rs)

Machine integers are parametrized by `UProps`: the bit width of the target
unsigned type and the length of its compile-time power-of-ten table (the
`unsigned!` macro instantiations at integer.rs lines 575-649). -/

/-- `Error` from integer.rs lines 8-13 (named `IntError` here): arithmetic
overflow, or a decimal number where an integer was required. -/
inductive IntError where
  | overflow
  | decimal
deriving DecidableEq

/-- Width and power-of-ten-table length of an unsigned target type. -/
structure UProps where
  bits : Nat
  tbl : Nat
deriving DecidableEq

/-- `u8`: 8 bits, `POWS` table `[1, 10, 100]`. -/
def u8Props : UProps := ⟨8, 3⟩

/-- `u16`: 16 bits, five table entries. -/
def u16Props : UProps := ⟨16, 5⟩

/-- `u32`: 32 bits, ten table entries (`10^0` .. `10^9`). -/
def u32Props : UProps := ⟨32, 10⟩

/-- `u64`: 64 bits, twenty table entries. -/
def u64Props : UProps := ⟨64, 20⟩

/-- `u128`: 128 bits, thirty-two table entries. -/
def u128Props : UProps := ⟨128, 32⟩

/-- The largest value of the target type. -/
def umax (P : UProps) : Nat := 2 ^ P.bits - 1

/-- `checked_mul` (integer.rs lines 522-525). -/
def checkedMul (P : UProps) (a b : Nat) : Option Nat :=
  if a * b ≤ umax P then some (a * b) else none

/-- `checked_add` (integer.rs lines 517-520). -/
def checkedAdd (P : UProps) (a b : Nat) : Option Nat :=
  if a + b ≤ umax P then some (a + b) else none

/-- `checked_mul10` (integer.rs lines 512-515). -/
def checkedMul10 (P : UProps) (a : Nat) : Option Nat :=
  checkedMul P a 10

/-- Rust `checked_pow` semantics for base ten (integer.rs lines 536-539):
`10^e` when it fits the target, `none` otherwise. -/
def checkedPowTen (P : UProps) (e : Nat) : Option Nat :=
  if 10 ^ e ≤ umax P then some (10 ^ e) else none

/-- `checked_pow10` (integer.rs lines 499-510): look the power up in the
compile-time table (whose entry `e` is `10^e`) and `checked_mul`; past the
table, fall back to `10.checked_pow(exp)` followed by the `checked_mul`. -/
def checkedPow10 (P : UProps) (a e : Nat) : Option Nat :=
  if e < P.tbl then checkedMul P a (10 ^ e)
  else
    match checkedPowTen P e with
    | none => none
    | some p => checkedMul P a p

/-- `div_mod_ten` (integer.rs lines 527-534): divide by ten requiring exact
divisibility. -/
def divModTen (a : Nat) : Option Nat :=
  if a % 10 = 0 then some (a / 10) else none

/-- `Mantissa<T>` (integer.rs lines 65-70): the fractional digits' value
and the count `exp` of counted fractional positions. -/
structure Mantissa where
  value : Nat
  exp : Nat
deriving DecidableEq

/-- `Exponent` (integer.rs lines 58-62): sign and magnitude of the parsed
exponent. -/
structure Exponent where
  isNegative : Bool
  value : Nat
deriving DecidableEq

/-- `Parts<T>` (integer.rs lines 84-92): base, mantissa and exponent of a
parsed JSON number. -/
structure Parts where
  base : Nat
  m : Mantissa
  e : Exponent
deriving DecidableEq

/-- The `for _ in 0..e.value` loop of `Parts::compute` (integer.rs lines
140-142): repeatedly `div_mod_ten`, failing with decimal on any nonzero
remainder. -/
def divTenLoop : Nat → Nat → Except IntError Nat
  | 0, base => .ok base
  | k + 1, base =>
    match divModTen base with
    | none => .error .decimal
    | some b => divTenLoop k b

/-- `Parts::compute` (integer.rs lines 98-145): with a zero exponent the
mantissa must be zero and the base is returned; with a positive exponent,
`base * 10^e + mantissa * 10^(e - exp)` is assembled with checked steps
(`Decimal` when `e < exp`, `Overflow` on a failed multiplication or
addition, the base multiplication skipped for a zero base); with a negative
exponent the mantissa must be zero and the base is divided by ten `e`
times, requiring exact divisibility. -/
def Parts.compute (P : UProps) (p : Parts) : Except IntError Nat :=
  if p.e.value = 0 then
    if p.m.value ≠ 0 then .error .decimal else .ok p.base
  else if p.e.isNegative = false then
    if p.e.value < p.m.exp then .error .decimal
    else
      match (if p.base ≠ 0 then checkedPow10 P p.base p.e.value
             else some p.base) with
      | none => .error .overflow
      | some base1 =>
        match (checkedPow10 P p.m.value (p.e.value - p.m.exp)).bind
            (checkedAdd P base1) with
        | none => .error .overflow
        | some r => .ok r
  else
    if p.m.value ≠ 0 then .error .decimal
    else divTenLoop p.e.value p.base

/-- The composition step exactly as C4 words it, kept side by side with the
source's `Parts.compute` for comparison: for an effective exponent
`e' ≥ 0` the value is `b * 10^e' + m * 10^(e' - exp)`, failing with decimal
whenever `e' < exp` and with overflow when the result exceeds the target;
for `e' < 0` the mantissa must be zero and the base is divided exactly. -/
def computeClaimed (P : UProps) (p : Parts) : Except IntError Nat :=
  let e' : Int := if p.e.isNegative then -(p.e.value : Int) else (p.e.value : Int)
  if 0 ≤ e' then
    if e' < (p.m.exp : Int) then .error .decimal
    else
      let v := p.base * 10 ^ p.e.value + p.m.value * 10 ^ (p.e.value - p.m.exp)
      if v ≤ umax P then .ok v else .error .overflow
  else
    if p.m.value ≠ 0 then .error .decimal
    else if p.base % 10 ^ p.e.value = 0 then .ok (p.base / 10 ^ p.e.value)
    else .error .decimal

theorem divTenLoop_eq (k : Nat) :
    ∀ base, divTenLoop k base =
      if 10 ^ k ∣ base then .ok (base / 10 ^ k) else .error .decimal := by
  induction k with
  | zero =>
    intro base
    simp [divTenLoop]
  | succ k ih =>
    intro base
    by_cases h : base % 10 = 0
    · have hdvd : 10 ∣ base := Nat.dvd_of_mod_eq_zero h
      obtain ⟨b, rfl⟩ := hdvd
      rw [divTenLoop]
      simp only [divModTen, if_pos h]
      rw [Nat.mul_div_cancel_left b (by norm_num : (0 : Nat) < 10)]
      rw [ih b]
      have hiff : 10 ^ (k + 1) ∣ 10 * b ↔ 10 ^ k ∣ b := by
        rw [pow_succ, mul_comm (10 ^ k) 10]
        exact mul_dvd_mul_iff_left (by norm_num : (10 : Nat) ≠ 0)
      have hdivs : 10 * b / 10 ^ (k + 1) = b / 10 ^ k := by
        rw [pow_succ, mul_comm (10 ^ k) 10, ← Nat.div_div_eq_div_mul,
          Nat.mul_div_cancel_left b (by norm_num : (0 : Nat) < 10)]
      by_cases hk : 10 ^ k ∣ b
      · rw [if_pos hk, if_pos (hiff.mpr hk), hdivs]
      · rw [if_neg hk, if_neg (fun hc => hk (hiff.mp hc))]
    · rw [divTenLoop]
      simp only [divModTen, if_neg h]
      have hnd : ¬ 10 ^ (k + 1) ∣ base := by
        intro hc
        have h10 : (10 : Nat) ∣ base :=
          dvd_trans (dvd_pow_self 10 (Nat.succ_ne_zero k)) hc
        omega
      rw [if_neg hnd]

theorem checkedPow10_of_le (P : UProps) (a e : Nat) (hp : 10 ^ e ≤ umax P) :
    checkedPow10 P a e = if a * 10 ^ e ≤ umax P then some (a * 10 ^ e) else none := by
  rw [checkedPow10]
  by_cases ht : e < P.tbl
  · rw [if_pos ht]
    simp only [checkedMul]
  · rw [if_neg ht, checkedPowTen, if_pos hp]
    simp only [checkedMul]

theorem checkedPow10_none (P : UProps) (a e : Nat) (h : umax P < a * 10 ^ e) :
    checkedPow10 P a e = none := by
  rw [checkedPow10]
  by_cases ht : e < P.tbl
  · rw [if_pos ht]
    have hne : ¬ (a * 10 ^ e ≤ umax P) := by omega
    simp only [checkedMul, if_neg hne]
  · rw [if_neg ht, checkedPowTen]
    by_cases hp : 10 ^ e ≤ umax P
    · rw [if_pos hp]
      have hne : ¬ (a * 10 ^ e ≤ umax P) := by omega
      simp only [checkedMul, if_neg hne]
    · rw [if_neg hp]

/-- C4 (amended): characterization of the composition step `Parts::compute`.
With exponent value 0 (no exponent, `e0`, or `e-0`), the mantissa value must
be zero — regardless of its digit count — and the base is returned
unchanged.  With a positive exponent `e`, the result is
`b * 10^e + m * 10^(e - exp)`: decimal when `e < exp`, overflow when a
checked multiplication or addition exceeds the target (the base
multiplication is skipped when `b = 0`).  With a negative exponent the
mantissa must be zero (else decimal) and the base is divided by ten `e`
times, failing with decimal on any nonzero remainder. -/
theorem parts_compute_characterization (P : UProps) (p : Parts) :
    (p.e.value = 0 →
      Parts.compute P p =
        (if p.m.value = 0 then .ok p.base else .error .decimal)) ∧
    (p.e.isNegative = false → 0 < p.e.value → p.e.value < p.m.exp →
      Parts.compute P p = .error .decimal) ∧
    (p.e.isNegative = false → 0 < p.e.value → p.m.exp ≤ p.e.value →
      10 ^ p.e.value ≤ umax P →
      p.base * 10 ^ p.e.value + p.m.value * 10 ^ (p.e.value - p.m.exp) ≤
        umax P →
      Parts.compute P p =
        .ok (p.base * 10 ^ p.e.value +
          p.m.value * 10 ^ (p.e.value - p.m.exp))) ∧
    (p.e.isNegative = false → 0 < p.e.value → p.m.exp ≤ p.e.value →
      p.base ≠ 0 → umax P < p.base * 10 ^ p.e.value →
      Parts.compute P p = .error .overflow) ∧
    (p.e.isNegative = true → 0 < p.e.value →
      Parts.compute P p =
        (if p.m.value ≠ 0 then .error .decimal
         else if 10 ^ p.e.value ∣ p.base then .ok (p.base / 10 ^ p.e.value)
         else .error .decimal)) := by
  refine ⟨?_, ?_, ?_, ?_, ?_⟩
  · intro h0
    rw [Parts.compute, if_pos h0]
    by_cases hm : p.m.value = 0 <;> simp [hm]
  · intro hneg h0 hlt
    rw [Parts.compute, if_neg (by omega), if_pos hneg, if_pos hlt]
  · intro hneg h0 hle hpow hsum
    rw [Parts.compute, if_neg (by omega), if_pos hneg, if_neg (by omega)]
    have hpowk : 10 ^ (p.e.value - p.m.exp) ≤ umax P :=
      le_trans (Nat.pow_le_pow_right (by norm_num) (by omega)) hpow
    have hm10 : checkedPow10 P p.m.value (p.e.value - p.m.exp) =
        some (p.m.value * 10 ^ (p.e.value - p.m.exp)) := by
      rw [checkedPow10_of_le P _ _ hpowk, if_pos (by omega)]
    by_cases hb : p.base = 0
    · rw [if_neg (by omega)]
      simp only [hb, hm10, Option.some_bind, checkedAdd]
      rw [if_pos (by omega)]
      simp [hb]
    · rw [if_pos hb]
      have hb10 : checkedPow10 P p.base p.e.value =
          some (p.base * 10 ^ p.e.value) := by
        rw [checkedPow10_of_le P _ _ hpow, if_pos (by omega)]
      rw [hb10]
      simp only [hm10, Option.some_bind, checkedAdd]
      rw [if_pos hsum]
  · intro hneg h0 hle hb hov
    rw [Parts.compute, if_neg (by omega), if_pos hneg, if_neg (by omega),
      if_pos hb, checkedPow10_none P _ _ hov]
  · intro hneg h0
    rw [Parts.compute, if_neg (by omega), if_neg (by simp [hneg])]
    by_cases hm : p.m.value ≠ 0
    · rw [if_pos hm]
      rw [if_pos hm]
    · rw [if_neg hm, divTenLoop_eq]
      rw [if_neg hm]

/-- Witness for C4 on concrete parts: `2.5e3` (base 2, mantissa 5 with one
digit, exponent +3) computes to `2500`, and `7e-2` (mantissa zero, exponent
-2) fails with decimal because 100 does not divide 7. -/
theorem parts_compute_characterization_witness :
    Parts.compute u32Props ⟨2, ⟨5, 1⟩, ⟨false, 3⟩⟩ =
      .ok (2 * 10 ^ 3 + 5 * 10 ^ (3 - 1)) ∧
    Parts.compute u32Props ⟨7, ⟨0, 0⟩, ⟨true, 2⟩⟩ =
      (if (0 : Nat) ≠ 0 then .error .decimal
       else if 10 ^ 2 ∣ 7 then .ok (7 / 10 ^ 2) else .error .decimal) :=
  ⟨(parts_compute_characterization u32Props ⟨2, ⟨5, 1⟩, ⟨false, 3⟩⟩).2.2.1
      rfl (by norm_num) (by norm_num) (by norm_num [umax, u32Props])
      (by norm_num [umax, u32Props]),
   (parts_compute_characterization u32Props ⟨7, ⟨0, 0⟩, ⟨true, 2⟩⟩).2.2.2.2
      rfl (by norm_num)⟩

/-! ### Byte-level number decoding (musli-json/src/reader/integer.rs)

The parser state is the remaining byte list plus the absolute position of
its head; `SliceParser` semantics: `peek_byte` looks at the head,
`read_byte` consumes it (underflow at the end), `pos` is the position. -/

/-- The `ParseErrorKind`s reachable from the number parser and the JSON
decoder paths modelled here. -/
inductive PEKind where
  | invalidNumeric
  | integerError (e : IntError)
  | underflow
  | expectedOpenBrace
  | expectedOpenBracket
  | expectedValue
  | expectedString
  | badString
  | expectedColon
  | expectedTrue
  | expectedFalse
  | expectedNull
  | message
deriving DecidableEq

/-- `ParseError::spanned(start, stop, kind)`. -/
structure SpanError where
  start : Nat
  stop : Nat
  kind : PEKind
deriving DecidableEq

/-- `is_digit` (integer.rs lines 396-398). -/
def isDigit (b : Nat) : Bool := 48 ≤ b && b ≤ 57

/-- `is_digit_nonzero` (integer.rs lines 401-404). -/
def isDigitNonzero (b : Nat) : Bool := 49 ≤ b && b ≤ 57

/-- The digit-accumulation loop `while peek is digit { acc = digit(acc) }`
with `digit` from integer.rs lines 360-377: a checked multiplication by ten
— overflow is spanned from `start` to the current position, before the
offending digit is consumed — then an unchecked addition of the digit
(wrapping at the target width, as Rust release arithmetic does).  Used for
the integer prefix (lines 270-277) and for the exponent digits (lines
351-353). -/
def baseLoop (P : UProps) (start : Nat) :
    Nat → List Nat → Nat → Except SpanError (Nat × List Nat × Nat)
  | acc, [], pos => .ok (acc, [], pos)
  | acc, b :: r, pos =>
    if isDigit b then
      match checkedMul10 P acc with
      | none => .error ⟨start, pos, .integerError .overflow⟩
      | some acc1 =>
        baseLoop P start ((acc1 + (b - 48)) % 2 ^ P.bits) r (pos + 1)
    else .ok (acc, b :: r, pos)

/-- `decode_zeros` (integer.rs lines 380-392): count and consume a run of
zero digits. -/
def decodeZeros : List Nat → Nat → Nat × List Nat × Nat
  | [], pos => (0, [], pos)
  | b :: r, pos =>
    if b = 48 then
      let z := decodeZeros r (pos + 1)
      (z.1 + 1, z.2.1, z.2.2)
    else (0, b :: r, pos)

/-- The fractional-digit loop (integer.rs lines 299-320), with the
`zeros = decode_zeros` trailing each iteration fused into a pending-zeros
count: a pending zero run is accounted into `exp` and `value` (via
`checked_pow10`, the source's zero-accrual) only when a further nonzero
digit arrives, so a final zero run never affects the mantissa; the
per-digit accumulation is the same checked-multiply/unchecked-add as
`digit`. -/
def mantissaLoop (P : UProps) (start : Nat) :
    Nat → Nat → Nat → List Nat → Nat →
    Except SpanError ((Nat × Nat) × List Nat × Nat)
  | mv, me, _zeros, [], pos => .ok ((mv, me), [], pos)
  | mv, me, zeros, b :: r, pos =>
    if b = 48 then mantissaLoop P start mv me (zeros + 1) r (pos + 1)
    else if isDigit b then
      match (if 0 < zeros then checkedPow10 P mv zeros else some mv) with
      | none => .error ⟨start, pos, .integerError .overflow⟩
      | some mv1 =>
        let me1 := (if 0 < zeros then me + zeros else me) + 1
        match checkedMul10 P mv1 with
        | none => .error ⟨start, pos, .integerError .overflow⟩
        | some mv2 =>
          mantissaLoop P start ((mv2 + (b - 48)) % 2 ^ P.bits) me1 0 r (pos + 1)
    else .ok ((mv, me), b :: r, pos)

/-- `decode_exponent` (integer.rs lines 334-356): optional sign, then the
digit loop accumulating into a 32-bit value. -/
def decodeExponent (start : Nat) (l : List Nat) (pos : Nat) :
    Except SpanError (Exponent × List Nat × Nat) :=
  match l with
  | 45 :: r =>
    match baseLoop u32Props start 0 r (pos + 1) with
    | .error e => .error e
    | .ok (v, r', p') => .ok (⟨true, v⟩, r', p')
  | 43 :: r =>
    match baseLoop u32Props start 0 r (pos + 1) with
    | .error e => .error e
    | .ok (v, r', p') => .ok (⟨false, v⟩, r', p')
  | _ =>
    match baseLoop u32Props start 0 l pos with
    | .error e => .error e
    | .ok (v, r', p') => .ok (⟨false, v⟩, r', p')

/-- `decode_unsigned_inner` (integer.rs lines 263-331): read the integer
prefix (a lone `0`, or a nonzero digit followed by the digit loop; anything
else is `InvalidNumeric` spanned to just past the consumed byte); on a `.`,
count the leading zero run into `exp` and run the fractional loop; on `e`
or `E`, decode the exponent. -/
def decodeUnsignedInner (P : UProps) (l : List Nat) (pos : Nat) :
    Except SpanError (Parts × List Nat × Nat) :=
  let start := pos
  match l with
  | [] => .error ⟨pos, pos, .underflow⟩
  | b :: r =>
    match
      (if b = 48 then Except.ok ((0 : Nat), r, pos + 1)
       else if isDigitNonzero b then baseLoop P start (b - 48) r (pos + 1)
       else .error ⟨start, pos + 1, .invalidNumeric⟩ :
        Except SpanError (Nat × List Nat × Nat)) with
    | .error e => .error e
    | .ok (base, l1, pos1) =>
      match
        (match l1 with
         | 46 :: r1 =>
           let z := decodeZeros r1 (pos1 + 1)
           match mantissaLoop P start 0 z.1 0 z.2.1 z.2.2 with
           | .error e => .error e
           | .ok (m, l2, pos2) => .ok (Mantissa.mk m.1 m.2, l2, pos2)
         | _ => .ok (Mantissa.mk 0 0, l1, pos1) :
          Except SpanError (Mantissa × List Nat × Nat)) with
      | .error e => .error e
      | .ok (m, l2, pos2) =>
        match l2 with
        | 101 :: r2 =>
          match decodeExponent start r2 (pos2 + 1) with
          | .error e => .error e
          | .ok (ex, l3, pos3) => .ok (⟨base, m, ex⟩, l3, pos3)
        | 69 :: r2 =>
          match decodeExponent start r2 (pos2 + 1) with
          | .error e => .error e
          | .ok (ex, l3, pos3) => .ok (⟨base, m, ex⟩, l3, pos3)
        | _ => .ok (⟨base, m, ⟨false, 0⟩⟩, l2, pos2)

/-- `parse_unsigned` (integer.rs lines 198-213): decode the parts, then run
the composition step, spanning a composition failure from the start of the
number to the current position. -/
def parseUnsigned (P : UProps) (l : List Nat) (pos : Nat) :
    Except SpanError (Nat × List Nat × Nat) :=
  let start := pos
  match decodeUnsignedInner P l pos with
  | .error e => .error e
  | .ok (parts, l', pos') =>
    match parts.compute P with
    | .ok v => .ok (v, l', pos')
    | .error e => .error ⟨start, pos', .integerError e⟩

/-- Counterexample for C4 as stated: parsing the JSON literal `1.0` yields
the parts base 1, mantissa value 0 with digit count `exp = 1`, exponent 0;
these have `e' = 0 < 1 = exp`, so the claim demands a decimal failure, but
the source's `Parts::compute` takes its `e.value == 0` early branch, only
checks that the mantissa value is zero, and returns `ok 1`. -/
theorem parts_compute_claim_counterexample :
    decodeUnsignedInner u32Props [49, 46, 48] 0 =
      .ok (⟨1, ⟨0, 1⟩, ⟨false, 0⟩⟩, [], 3) ∧
    Parts.compute u32Props ⟨1, ⟨0, 1⟩, ⟨false, 0⟩⟩ = .ok 1 ∧
    computeClaimed u32Props ⟨1, ⟨0, 1⟩, ⟨false, 0⟩⟩ = .error .decimal ∧
    Parts.compute u32Props ⟨1, ⟨0, 1⟩, ⟨false, 0⟩⟩ ≠
      computeClaimed u32Props ⟨1, ⟨0, 1⟩, ⟨false, 0⟩⟩ := by
  have h1 : Parts.compute u32Props ⟨1, ⟨0, 1⟩, ⟨false, 0⟩⟩ = .ok 1 := rfl
  have h2 : computeClaimed u32Props ⟨1, ⟨0, 1⟩, ⟨false, 0⟩⟩ =
      .error .decimal := rfl
  refine ⟨rfl, h1, h2, ?_⟩
  rw [h1, h2]
  simp

/-- C8 (amended): parsing a run of ten or more nines into `u32` fails with
the overflow error kind, detected by `digit`'s checked multiplication after
nine digits were consumed: the parser position at the failure is `start +
9`, pointing at the tenth digit — it is not advanced past the token. -/
theorem parse_unsigned_overflow_mid_token (k : Nat) :
    parseUnsigned u32Props (List.replicate (k + 10) 57) 0 =
      .error ⟨0, 9, .integerError .overflow⟩ := by
  have h : List.replicate (k + 10) 57 =
      57 :: 57 :: 57 :: 57 :: 57 :: 57 :: 57 :: 57 :: 57 :: 57 ::
        List.replicate k 57 := by
    simp [List.replicate_succ]
  rw [h]
  simp [parseUnsigned, decodeUnsignedInner, baseLoop, checkedMul10,
    checkedMul, umax, u32Props, isDigit, isDigitNonzero]

/-- Counterexample for C8 as stated: for the 35-nines literal the parse
into `u32` fails with overflow at position 9, not past the 35-byte
token. -/
theorem parse_unsigned_overflow_position_counterexample :
    parseUnsigned u32Props (List.replicate 35 57) 0 =
      .error ⟨0, 9, .integerError .overflow⟩ ∧ (9 : Nat) ≠ 35 :=
  ⟨by rfl, by norm_num⟩

/-! ### JSON object-key integer decoding (musli-json/src/de.rs) -/

/-- The whitespace bytes skipped between JSON tokens. -/
def isWs (b : Nat) : Bool := b = 32 || b = 9 || b = 10 || b = 13

/-- Modelled from the spec: the whitespace-skipping part of the parser's
`peek` / `skip_whitespace` (the `Parser` trait impl is absent from the
sources): advance over whitespace bytes. -/
def skipWs : List Nat → Nat → List Nat × Nat
  | [], pos => ([], pos)
  | b :: r, pos => if isWs b then skipWs r (pos + 1) else (b :: r, pos)

/-- Modelled from the spec: reading the raw contents of a JSON string whose
opening quote was already consumed (`Parser::parse_string`, absent from the
sources), restricted to strings without escapes — enough for the
integer-key paths modelled here; a backslash or a missing closing quote is
a failure. -/
def parseStringRaw : List Nat → Nat → Option (List Nat × List Nat × Nat)
  | [], _ => none
  | b :: r, pos =>
    if b = 34 then some ([], r, pos + 1)
    else if b = 92 then none
    else
      match parseStringRaw r (pos + 1) with
      | none => none
      | some (cs, r', p') => some (b :: cs, r', p')

/-- `JsonKeyDecoder::decode_u8`/…/`decode_u128` via `decode_escaped_bytes`
(de.rs lines 315-333 and 418-440) and `KeyUnsignedVisitor::visit_any`
(lines 336-365): require a string token, consume the opening quote, extract
the string's bytes, and run the byte-level integer parser
(`integer::decode_unsigned`) over those bytes with a fresh `SliceParser`
starting at position 0. -/
def keyDecodeUnsigned (P : UProps) (l : List Nat) (pos : Nat) :
    Except SpanError (Nat × List Nat × Nat) :=
  let s := skipWs l pos
  match s.1 with
  | [] => .error ⟨s.2, s.2, .underflow⟩
  | b :: r =>
    if b = 34 then
      match parseStringRaw r (s.2 + 1) with
      | none => .error ⟨s.2, s.2, .badString⟩
      | some (content, r', p') =>
        match parseUnsigned P content 0 with
        | .error e => .error e
        | .ok (v, _, _) => .ok (v, r', p')
    else .error ⟨s.2, s.2, .expectedString⟩

theorem parseStringRaw_clean :
    ∀ (cs : List Nat) (r : List Nat) (pos : Nat),
      (∀ b ∈ cs, b ≠ 34 ∧ b ≠ 92) →
      parseStringRaw (cs ++ 34 :: r) pos = some (cs, r, pos + cs.length + 1) := by
  intro cs
  induction cs with
  | nil =>
    intro r pos _
    simp [parseStringRaw]
  | cons b tl ih =>
    intro r pos hclean
    have hb := hclean b (by simp)
    have htl : ∀ x ∈ tl, x ≠ 34 ∧ x ≠ 92 := fun x hx =>
      hclean x (by simp [hx])
    simp only [List.cons_append, parseStringRaw, if_neg hb.1, if_neg hb.2,
      List.append_eq, ih r (pos + 1) htl]
    simp only [List.length_cons]
    rw [show pos + 1 + tl.length + 1 = pos + (tl.length + 1) + 1 from by omega]

/-- C7: decoding an integer-typed JSON map key first reads the JSON string
and then runs the internal byte-level integer parser on the string's bytes
(not a string-to-number conversion primitive): for any escape-free key
contents, the key decoder's outcome is exactly the outcome of
`parse_unsigned` on those bytes. -/
theorem json_key_integer_via_byte_parsing (P : UProps) (cs r : List Nat)
    (pos : Nat) (hclean : ∀ b ∈ cs, b ≠ 34 ∧ b ≠ 92) :
    keyDecodeUnsigned P (34 :: (cs ++ 34 :: r)) pos =
      (match parseUnsigned P cs 0 with
       | .error e => .error e
       | .ok (v, _, _) => .ok (v, r, pos + cs.length + 2)) := by
  have hws : skipWs (34 :: (cs ++ 34 :: r)) pos = (34 :: (cs ++ 34 :: r), pos) := by
    simp [skipWs, isWs]
  rw [keyDecodeUnsigned]
  simp only [hws, if_pos rfl, parseStringRaw_clean cs r (pos + 1) hclean]
  have harith : pos + 1 + cs.length + 1 = pos + cs.length + 2 := by omega
  rw [harith]
  rw [if_pos trivial]

/-- Witness for C7: the object key `"7"` decodes to the integer `7` of the
unsigned 64-bit target through the byte-level parser. -/
theorem json_key_integer_via_byte_parsing_witness :
    keyDecodeUnsigned u64Props (34 :: ([55] ++ 34 :: [])) 0 =
      (match parseUnsigned u64Props [55] 0 with
       | .error e => .error e
       | .ok (v, _, _) => .ok (v, [], 0 + [55].length + 2)) ∧
    keyDecodeUnsigned u64Props [34, 55, 34] 0 = .ok (7, [], 3) :=
  ⟨json_key_integer_via_byte_parsing u64Props [55] [] 0 (by decide), by rfl⟩

/-! ### `JsonDecoder::skip_any` (musli-json/src/de.rs lines 40-86)

The decoder's `skip_any` dispatches on the peeked token; the object and
array branches drive the pair/sequence decoders' `next` loops — and then
fall through to the literal `todo!()` at de.rs line 85, which panics.  The
`Token` type and the string parser live in the reader module, absent from
the sources, and are modelled from the spec; the outcome type has a
dedicated `panic` constructor for the `todo!()`. -/

/-- `Token` classification of the byte starting the next token (modelled
from the spec's JSON grammar; the `Token` enum is in the absent reader
module). -/
inductive JToken where
  | obrace
  | cbrace
  | obracket
  | cbracket
  | comma
  | colon
  | str
  | num
  | nul
  | tru
  | fls
  | other
deriving DecidableEq

/-- Classify a byte as the token it starts. -/
def tokenOf (b : Nat) : JToken :=
  if b = 123 then .obrace
  else if b = 125 then .cbrace
  else if b = 91 then .obracket
  else if b = 93 then .cbracket
  else if b = 44 then .comma
  else if b = 58 then .colon
  else if b = 34 then .str
  else if b = 110 then .nul
  else if b = 116 then .tru
  else if b = 102 then .fls
  else if b = 45 || isDigit b then .num
  else .other

/-- `Token::is_value`: the tokens that can start a JSON value. -/
def JToken.isValue : JToken → Bool
  | .obrace | .obracket | .str | .num | .nul | .tru | .fls => true
  | _ => false

/-- `Parser::consume_while` over the head of the byte list. -/
def consumeWhile (f : Nat → Bool) : List Nat → Nat → List Nat × Nat
  | [], pos => ([], pos)
  | b :: r, pos => if f b then consumeWhile f r (pos + 1) else (b :: r, pos)

/-- The exponent tail of `skip_number` (integer.rs lines 178-192): optional
sign, then a digit run. -/
def expTail (l : List Nat) (pos : Nat) : List Nat × Nat :=
  match l with
  | 45 :: r => consumeWhile isDigit r (pos + 1)
  | 43 :: r => consumeWhile isDigit r (pos + 1)
  | _ => consumeWhile isDigit l pos

/-- `skip_number` (integer.rs lines 149-195): optional minus; a `0` or a
nonzero digit followed by `consume_while(is_digit_nonzero)` (the source
consumes only nonzero digits here); an optional fraction
(`.` then a digit run) and an optional exponent. -/
def skipNumber (l : List Nat) (pos : Nat) : Except SpanError (List Nat × Nat) :=
  let start := pos
  let s1 : List Nat × Nat :=
    match l with
    | 45 :: r => (r, pos + 1)
    | _ => (l, pos)
  match s1.1 with
  | [] => .error ⟨s1.2, s1.2, .underflow⟩
  | b :: r =>
    match
      (if b = 48 then Except.ok (r, s1.2 + 1)
       else if isDigitNonzero b then
         Except.ok (consumeWhile isDigitNonzero r (s1.2 + 1))
       else Except.error (⟨start, s1.2 + 1, .invalidNumeric⟩ : SpanError) :
        Except SpanError (List Nat × Nat)) with
    | .error e => .error e
    | .ok (l1, p1) =>
      let s2 : List Nat × Nat :=
        match l1 with
        | 46 :: r1 => consumeWhile isDigit r1 (p1 + 1)
        | _ => (l1, p1)
      let s3 : List Nat × Nat :=
        match s2.1 with
        | 101 :: r2 => expTail r2 (s2.2 + 1)
        | 69 :: r2 => expTail r2 (s2.2 + 1)
        | _ => s2
      .ok s3

/-- Modelled from the spec: `string::skip_string` after the opening quote
(the string module is absent from the sources): scan to the closing quote,
a backslash escaping the following byte. -/
def skipStringLoop : List Nat → Nat → Except SpanError (List Nat × Nat)
  | [], pos => .error ⟨pos, pos, .underflow⟩
  | b :: r, pos =>
    if b = 34 then .ok (r, pos + 1)
    else if b = 92 then
      match r with
      | [] => .error ⟨pos + 1, pos + 1, .underflow⟩
      | _ :: r2 => skipStringLoop r2 (pos + 2)
    else skipStringLoop r (pos + 1)

/-- `Parser::parse_exact` as used by `parse_true` / `parse_false` /
`parse_null` (de.rs lines 88-107): match and consume the literal's bytes
or fail with the given kind. -/
def parseExact (target : List Nat) (k : PEKind) (l : List Nat) (pos : Nat) :
    Except SpanError (List Nat × Nat) :=
  if l.take target.length = target then
    .ok (l.drop target.length, pos + target.length)
  else .error ⟨pos, pos, k⟩

/-- Outcome of a skip: success with the rest of the input, a parse error,
the `todo!()` panic, or fuel exhaustion of the embedding. -/
inductive JOut (α : Type) where
  | ok (a : α)
  | err (e : SpanError)
  | panic
  | outOfFuel
deriving DecidableEq

/-- The object pair loop driven by `skip_any`'s OpenBrace arm (de.rs lines
45-53) over `JsonObjectDecoder::next` (lines 543-569), with the value skip
passed in as `f`: as long as the peeked token is a string, skip the key
(`pair.first()?.skip_any()?` — the key decoder's `skip_any` is the value
decoder's), expect a colon and skip the value (`skip_second`, lines
624-636); a comma is consumed between entries; a closing brace ends the
loop. -/
def objLoopF (f : List Nat → Nat → JOut (List Nat × Nat)) :
    Nat → Bool → List Nat → Nat → JOut (List Nat × Nat)
  | 0, _, _, _ => .outOfFuel
  | it + 1, first, l, pos =>
    let s := skipWs l pos
    match s.1 with
    | [] => .err ⟨s.2, s.2, .message⟩
    | b :: r =>
      if tokenOf b = .str then
        match f s.1 s.2 with
        | .ok (l1, p1) =>
          let s2 := skipWs l1 p1
          match s2.1 with
          | 58 :: r2 =>
            match f r2 (s2.2 + 1) with
            | .ok (l3, p3) => objLoopF f it false l3 p3
            | .err e => .err e
            | .panic => .panic
            | .outOfFuel => .outOfFuel
          | _ => .err ⟨s2.2, s2.2, .expectedColon⟩
        | .err e => .err e
        | .panic => .panic
        | .outOfFuel => .outOfFuel
      else
        match tokenOf b with
        | .comma =>
          if first then .err ⟨s.2, s.2, .message⟩
          else objLoopF f it false r (s.2 + 1)
        | .cbrace => .ok (r, s.2 + 1)
        | _ => .err ⟨s.2, s.2, .message⟩

/-- The array element loop driven by `skip_any`'s OpenBracket arm (de.rs
lines 54-60) over `JsonSequenceDecoder::next` (lines 694-722): as long as
the peeked token can start a value, skip it; commas between elements; a
closing bracket ends the loop. -/
def seqLoopF (f : List Nat → Nat → JOut (List Nat × Nat)) :
    Nat → Bool → List Nat → Nat → JOut (List Nat × Nat)
  | 0, _, _, _ => .outOfFuel
  | it + 1, first, l, pos =>
    let s := skipWs l pos
    match s.1 with
    | [] => .err ⟨s.2, s.2, .message⟩
    | b :: r =>
      if (tokenOf b).isValue then
        match f s.1 s.2 with
        | .ok (l1, p1) => seqLoopF f it false l1 p1
        | .err e => .err e
        | .panic => .panic
        | .outOfFuel => .outOfFuel
      else
        match tokenOf b with
        | .comma =>
          if first then .err ⟨s.2, s.2, .message⟩
          else seqLoopF f it false r (s.2 + 1)
        | .cbracket => .ok (r, s.2 + 1)
        | _ => .err ⟨s.2, s.2, .message⟩

/-- Translation of `JsonDecoder::skip_any` (de.rs lines 40-86), total via
fuel: peek the next token; objects and arrays open the matching decoder
(consuming the brace/bracket after whitespace) and drive its loop — after
which control falls through to the `todo!()` at line 85, i.e. a panic —
while `null` / `true` / `false` / numbers / strings are skipped and
return. -/
def skipAnyJson : Nat → List Nat → Nat → JOut (List Nat × Nat)
  | 0, _, _ => .outOfFuel
  | fuel + 1, l, pos =>
    let s := skipWs l pos
    match s.1 with
    | [] => .err ⟨s.2, s.2, .expectedValue⟩
    | b :: r =>
      match tokenOf b with
      | .obrace =>
        match objLoopF (skipAnyJson fuel) fuel true r (s.2 + 1) with
        | .ok _ => .panic
        | .err e => .err e
        | .panic => .panic
        | .outOfFuel => .outOfFuel
      | .obracket =>
        match seqLoopF (skipAnyJson fuel) fuel true r (s.2 + 1) with
        | .ok _ => .panic
        | .err e => .err e
        | .panic => .panic
        | .outOfFuel => .outOfFuel
      | .nul =>
        match parseExact [110, 117, 108, 108] .expectedNull s.1 s.2 with
        | .ok out => .ok out
        | .error e => .err e
      | .tru =>
        match parseExact [116, 114, 117, 101] .expectedTrue s.1 s.2 with
        | .ok out => .ok out
        | .error e => .err e
      | .fls =>
        match parseExact [102, 97, 108, 115, 101] .expectedFalse s.1 s.2 with
        | .ok out => .ok out
        | .error e => .err e
      | .num =>
        match skipNumber s.1 s.2 with
        | .ok out => .ok out
        | .error e => .err e
      | .str =>
        match s.1 with
        | 34 :: r1 =>
          match skipStringLoop r1 (s.2 + 1) with
          | .ok out => .ok out
          | .error e => .err e
        | _ => .err ⟨s.2, s.2, .message⟩
      | _ => .err ⟨s.2, s.2, .expectedValue⟩

/-- C5 is violated: `skip_any` on any well-formed object or array reaches
the `todo!()` at de.rs line 85 and panics — after consuming the whole
value: `{}`, `[]` and `{"a": 1}` all panic, while scalars (`true`, `42`,
`"hi"`, `null`) are skipped to completion, consuming exactly one value. -/
theorem json_skip_any_object_panics :
    skipAnyJson 3 [123, 125] 0 = .panic ∧
    skipAnyJson 3 [91, 93] 0 = .panic ∧
    skipAnyJson 3 [123, 34, 97, 34, 58, 49, 125] 0 = .panic ∧
    skipAnyJson 3 [116, 114, 117, 101] 0 = .ok ([], 4) ∧
    skipAnyJson 3 [52, 50] 0 = .ok ([], 2) ∧
    skipAnyJson 3 [34, 104, 105, 34] 0 = .ok ([], 4) ∧
    skipAnyJson 3 [110, 117, 108, 108] 0 = .ok ([], 4) := by
  refine ⟨rfl, rfl, rfl, rfl, rfl, rfl, rfl⟩

/-! ### The in-memory value tree (musli-value)

`musli-value/src/lib.rs` exposes `encode` (drive a value's `Encode` impl
into a `ValueEncoder` building a `Value`) and `decode` (drive its `Decode`
impl over the value's decoder).  The `Value` type and both drivers
(`value.rs`, `en.rs`, `de.rs`) are absent from the sources and are
modelled from the spec (section 4.7): the tree's variants, the encoder
that constructs them, and the decoder that walks them back re-checking the
requested target type.  Floats are carried as their IEEE bit patterns, as
the binary drivers do. -/

/-- Modelled from the spec: the `Value` tree (spec section 4.7): Unit,
Bool, Char, Unsigned(u128), Signed(i128), floats by bit pattern, Bytes,
String, Option, Sequence, Map and Variant. -/
inductive Value where
  | unit
  | bool (b : Bool)
  | char (c : Nat)
  | unsigned (n : Nat)
  | signed (i : Int)
  | float32 (bits : Nat)
  | float64 (bits : Nat)
  | bytes (bs : List Nat)
  | str (s : String)
  | option (o : Option Value)
  | sequence (l : List Value)
  | map (m : List (Value × Value))
  | variant (tag payload : Value)

/-- The protocol's value kinds (spec section 3) used to drive typed
encoding and decoding, as the derive layer's `Encode`/`Decode` impls do. -/
inductive Ty where
  | tUnit
  | tBool
  | tChar
  | tU8
  | tU32
  | tU64
  | tU128
  | tI32
  | tF32
  | tF64
  | tStr
  | tBytes
  | tOption (t : Ty)
  | tSeq (t : Ty)
  | tMap (k v : Ty)
  | tVariant (a b : Ty)

/-- The values of each kind, machine integers as bounded naturals or
integers (the bound enforced by `wfT` below). -/
@[reducible] def TVal : Ty → Type
  | .tUnit => Unit
  | .tBool => Bool
  | .tChar => Nat
  | .tU8 => Nat
  | .tU32 => Nat
  | .tU64 => Nat
  | .tU128 => Nat
  | .tI32 => Int
  | .tF32 => Nat
  | .tF64 => Nat
  | .tStr => String
  | .tBytes => List Nat
  | .tOption t => Option (TVal t)
  | .tSeq t => List (TVal t)
  | .tMap k v => List (TVal k × TVal v)
  | .tVariant a b => TVal a × TVal b

/-- In-range side conditions of a typed value (the unsigned widths all
share the `Unsigned(u128)` tree node, signed ones `Signed(i128)`). -/
def wfT : (t : Ty) → TVal t → Prop
  | .tUnit, _ => True
  | .tBool, _ => True
  | .tChar, c => c < 1114112
  | .tU8, n => n < 2 ^ 8
  | .tU32, n => n < 2 ^ 32
  | .tU64, n => n < 2 ^ 64
  | .tU128, n => n < 2 ^ 128
  | .tI32, i => -(2 ^ 31) ≤ i ∧ i < 2 ^ 31
  | .tF32, b => b < 2 ^ 32
  | .tF64, b => b < 2 ^ 64
  | .tStr, _ => True
  | .tBytes, _ => True
  | .tOption t, o => ∀ x ∈ o, wfT t x
  | .tSeq t, l => ∀ x ∈ l, wfT t x
  | .tMap k v, m => ∀ p ∈ m, wfT k p.1 ∧ wfT v p.2
  | .tVariant a b, p => wfT a p.1 ∧ wfT b p.2

/-- Modelled from the spec: `musli_value::encode` — the `ValueEncoder`
constructs the tree node for each protocol kind (spec section 4.7 "its
encoder constructs these"). -/
def encodeValue : (t : Ty) → TVal t → Value
  | .tUnit, _ => .unit
  | .tBool, b => .bool b
  | .tChar, c => .char c
  | .tU8, n => .unsigned n
  | .tU32, n => .unsigned n
  | .tU64, n => .unsigned n
  | .tU128, n => .unsigned n
  | .tI32, i => .signed i
  | .tF32, b => .float32 b
  | .tF64, b => .float64 b
  | .tStr, s => .str s
  | .tBytes, bs => .bytes bs
  | .tOption t, o => .option (o.map (encodeValue t))
  | .tSeq t, l => .sequence (l.map (encodeValue t))
  | .tMap k v, m =>
    .map (m.map fun p => (encodeValue k p.1, encodeValue v p.2))
  | .tVariant a b, p => .variant (encodeValue a p.1) (encodeValue b p.2)

/-- Decode each element of a list, failing on the first failure. -/
def optMapList (f : α → Option β) : List α → Option (List β)
  | [] => some []
  | x :: r =>
    match f x with
    | none => none
    | some b =>
      match optMapList f r with
      | none => none
      | some l => some (b :: l)

/-- Modelled from the spec: `musli_value::decode` — the value's decoder
walks the tree as if it were a wire format, re-checking that each node
carries the requested kind and that integers fit the requested width. -/
def decodeValue : (t : Ty) → Value → Option (TVal t)
  | .tUnit, .unit => some ()
  | .tBool, .bool b => some b
  | .tChar, .char c => if c < 1114112 then some c else none
  | .tU8, .unsigned n => if n < 2 ^ 8 then some n else none
  | .tU32, .unsigned n => if n < 2 ^ 32 then some n else none
  | .tU64, .unsigned n => if n < 2 ^ 64 then some n else none
  | .tU128, .unsigned n => if n < 2 ^ 128 then some n else none
  | .tI32, .signed i =>
    if -(2 ^ 31) ≤ i ∧ i < 2 ^ 31 then some i else none
  | .tF32, .float32 b => if b < 2 ^ 32 then some b else none
  | .tF64, .float64 b => if b < 2 ^ 64 then some b else none
  | .tStr, .str s => some s
  | .tBytes, .bytes bs => some bs
  | .tOption _, .option none => some none
  | .tOption t, .option (some w) => (decodeValue t w).map Option.some
  | .tSeq t, .sequence l => optMapList (decodeValue t) l
  | .tMap k v, .map m =>
    optMapList
      (fun p => (decodeValue k p.1).bind fun a =>
        (decodeValue v p.2).bind fun b => some (a, b)) m
  | .tVariant a b, .variant tg pl =>
    (decodeValue a tg).bind fun x =>
      (decodeValue b pl).bind fun y => some (x, y)
  | _, _ => none

/-- C1: for every protocol value kind and every in-range value of it,
decoding the output of encoding through the in-memory value tree yields
the original value: `decode (encode v) = some v`. -/
theorem value_tree_roundtrip :
    ∀ (t : Ty) (x : TVal t), wfT t x →
      decodeValue t (encodeValue t x) = some x := by
  intro t
  induction t with
  | tUnit => intro x _; simp [encodeValue, decodeValue]
  | tBool => intro x _; simp [encodeValue, decodeValue]
  | tChar =>
    intro x hx
    have hx' : x < 1114112 := hx
    simp only [encodeValue, decodeValue]
    rw [if_pos hx']
  | tU8 =>
    intro x hx
    have hx' : x < 2 ^ 8 := hx
    simp only [encodeValue, decodeValue]
    rw [if_pos hx']
  | tU32 =>
    intro x hx
    have hx' : x < 2 ^ 32 := hx
    simp only [encodeValue, decodeValue]
    rw [if_pos hx']
  | tU64 =>
    intro x hx
    have hx' : x < 2 ^ 64 := hx
    simp only [encodeValue, decodeValue]
    rw [if_pos hx']
  | tU128 =>
    intro x hx
    have hx' : x < 2 ^ 128 := hx
    simp only [encodeValue, decodeValue]
    rw [if_pos hx']
  | tI32 =>
    intro x hx
    have hx' : -(2 ^ 31) ≤ x ∧ x < 2 ^ 31 := hx
    simp only [encodeValue, decodeValue]
    rw [if_pos hx']
  | tF32 =>
    intro x hx
    have hx' : x < 2 ^ 32 := hx
    simp only [encodeValue, decodeValue]
    rw [if_pos hx']
  | tF64 =>
    intro x hx
    have hx' : x < 2 ^ 64 := hx
    simp only [encodeValue, decodeValue]
    rw [if_pos hx']
  | tStr => intro x _; simp [encodeValue, decodeValue]
  | tBytes => intro x _; simp [encodeValue, decodeValue]
  | tOption t iht =>
    intro x hx
    cases x with
    | none => simp [encodeValue, decodeValue]
    | some v =>
      have hv : wfT t v := hx v (by simp)
      simp [encodeValue, decodeValue, iht v hv]
  | tSeq t iht =>
    intro x hx
    simp only [encodeValue, decodeValue]
    induction x with
    | nil => simp [optMapList]
    | cons hd tl ihl =>
      have hhd : wfT t hd := hx hd (by simp)
      have htl : ∀ y ∈ tl, wfT t y := fun y hy => hx y (by simp [hy])
      simp only [List.map_cons, optMapList, iht hd hhd, ihl htl]
  | tMap k v ihk ihv =>
    intro x hx
    simp only [encodeValue, decodeValue]
    induction x with
    | nil => simp [optMapList]
    | cons hd tl ihl =>
      have hhd := hx hd (by simp)
      have htl : ∀ p ∈ tl, wfT k p.1 ∧ wfT v p.2 := fun p hp =>
        hx p (by simp [hp])
      simp only [List.map_cons, optMapList, ihk hd.1 hhd.1, ihv hd.2 hhd.2,
        ihl htl, Option.some_bind]
  | tVariant a b iha ihb =>
    intro x hx
    have hx' : wfT a x.1 ∧ wfT b x.2 := hx
    simp [encodeValue, decodeValue, iha x.1 hx'.1, ihb x.2 hx'.2]

/-- Witness for C1 on a concrete composite value: a map from `u32` to
optional strings survives the value-tree round trip. -/
theorem value_tree_roundtrip_witness :
    wfT (.tMap .tU32 (.tOption .tStr))
      ([(7, Option.some "hi"), (1000, Option.none)] :
        TVal (.tMap .tU32 (.tOption .tStr))) ∧
    decodeValue (.tMap .tU32 (.tOption .tStr))
      (encodeValue (.tMap .tU32 (.tOption .tStr))
        ([(7, Option.some "hi"), (1000, Option.none)] :
          TVal (.tMap .tU32 (.tOption .tStr)))) =
      some [(7, Option.some "hi"), (1000, Option.none)] := by
  have hwf : wfT (.tMap .tU32 (.tOption .tStr))
      ([(7, Option.some "hi"), (1000, Option.none)] :
        TVal (.tMap .tU32 (.tOption .tStr))) := by
    intro p hp
    simp at hp
    rcases hp with h | h <;> subst h <;> constructor <;> norm_num [wfT]
  exact ⟨hwf, value_tree_roundtrip _ _ hwf⟩

end Musli
